import Mathlib

/-!
Verification development for the proof-of-stake core of the Namada
repository (`proof_of_stake/src/lib.rs`).

The Rust code is shallowly embedded: machine integers become `Nat`/`Int`
(`token::Amount` is an unsigned 64-bit amount, `token::Change` a signed
128-bit delta; no operation in the verified scenarios approaches either
bound, and the saturating subtractions of the source are modelled by
truncated `Nat` subtraction), `rust_decimal::Decimal` becomes `ℚ`, and the
storage maps become explicit functional state.  Fallible operations return
`Except PosErr PosState`.
-/

namespace NamadaPos

/-- Addresses: the PoS internal account, the slash-pool internal account,
and user/validator addresses. -/
inductive Addr where
  | pos : Addr
  | slashPool : Addr
  | user : Nat → Addr
deriving DecidableEq, Repr

/-- Slash types, from `types.rs` (`SlashType`). -/
inductive SlashType where
  | duplicateVote : SlashType
  | lightClientAttack : SlashType
deriving DecidableEq, Repr

/-- Validator states, from `types.rs` (`ValidatorState`). -/
inductive ValidatorState where
  | consensus : ValidatorState
  | belowCapacity : ValidatorState
  | inactive : ValidatorState
  | jailed : ValidatorState
deriving DecidableEq, Repr

/-- Modelled from the spec: the PoS parameters (`parameters.rs` is not under
`src/`).  Spec §3: `pipeline_len`, `unbonding_len`, `max_consensus_slots K`,
`cubic_slashing_window_length W`, per-slash-type base rates. -/
structure PosParams where
  pipelineLen : Nat
  unbondingLen : Nat
  maxValidatorSlots : Nat
  cubicSlashingWindowLength : Nat
  duplicateVoteMinSlashRate : ℚ
  lightClientAttackMinSlashRate : ℚ
deriving Repr

/-- Modelled from the spec: `SlashType::get_slash_rate` (`types.rs` is not
under `src/`); each slash type is mapped to its minimum rate from the
parameters (spec §4.6). -/
def SlashType.getSlashRate (t : SlashType) (p : PosParams) : ℚ :=
  match t with
  | .duplicateVote => p.duplicateVoteMinSlashRate
  | .lightClientAttack => p.lightClientAttackMinSlashRate

/-- A slash record, from `types.rs` (`Slash`): infraction epoch, block
height, slash type and (post-processing) rate. -/
structure Slash where
  epoch : Nat
  blockHeight : Nat
  stype : SlashType
  rate : ℚ
deriving DecidableEq, Repr

/-- An entry of the `computed_amounts` list in `get_slashed_amount`
(`SlashedAmount` in `storage.rs`): a slashed amount together with the epoch
of the slash that produced it. -/
structure SlashedAmount where
  amount : Nat
  epoch : Nat
deriving DecidableEq, Repr

/-- Multiplication on `ℚ` by numerator/denominator arithmetic.  The
`Rat.mul` of the library is `@[irreducible]`; this kernel-reducible form is
proved equal to it in `qMul_eq` and is what the executable embedding
uses so that concrete scenario runs evaluate. -/
def qMul (a b : ℚ) : ℚ := mkRat (a.num * b.num) (a.den * b.den)

/-- Addition on `ℚ` by numerator/denominator arithmetic; equals `a + b`
(`qAdd_eq`). -/
def qAdd (a b : ℚ) : ℚ :=
  mkRat (a.num * (b.den : Int) + b.num * (a.den : Int)) (a.den * b.den)

/-- Inverse on `ℚ` by numerator/denominator arithmetic; equals `a⁻¹`
(`qInv_eq`). -/
def qInv (a : ℚ) : ℚ :=
  if 0 ≤ a.num then mkRat (a.den : Int) a.num.natAbs
  else mkRat (-(a.den : Int)) a.num.natAbs

/-- Division on `ℚ`; equals `a / b` (`qDiv_eq`). -/
def qDiv (a b : ℚ) : ℚ := qMul a (qInv b)

theorem qMul_eq (a b : ℚ) : qMul a b = a * b := by
  rw [Rat.mul_eq_mkRat]
  rfl

theorem qAdd_eq (a b : ℚ) : qAdd a b = a + b := by
  rw [Rat.add_def']
  rfl

theorem qInv_eq (a : ℚ) : qInv a = a⁻¹ := by
  rw [Rat.inv_def']
  by_cases h : 0 ≤ a.num
  · rw [qInv, if_pos h, Rat.mkRat_eq_divInt]
    congr 1
    omega
  · rw [qInv, if_neg h, Rat.mkRat_eq_divInt]
    have h2 : (a.num.natAbs : Int) = -a.num := by omega
    rw [h2, Rat.neg_divInt_neg]

theorem qDiv_eq (a b : ℚ) : qDiv a b = a / b := by
  rw [qDiv, qMul_eq, qInv_eq, div_eq_mul_inv]

/-- Boolean `≤` on `ℚ` via the reducible `Rat.blt`; equals the order on `ℚ`
(`qLeb_eq`). -/
def qLeb (a b : ℚ) : Bool := ! Rat.blt b a

/-- Minimum on `ℚ` computed with `qLeb`; equals `min` (`qMin_eq`). -/
def qMin (a b : ℚ) : ℚ := if qLeb a b then a else b

/-- Maximum on `ℚ` computed with `qLeb`; equals `max` (`qMax_eq`). -/
def qMax (a b : ℚ) : ℚ := if qLeb b a then a else b

theorem qLeb_eq (a b : ℚ) : qLeb a b = true ↔ a ≤ b := by
  rw [qLeb, Bool.not_eq_true']
  exact Iff.rfl

theorem qMin_eq (a b : ℚ) : qMin a b = min a b := by
  rcases le_total a b with h | h
  · rw [qMin, if_pos (qLeb_eq a b |>.mpr h), min_eq_left h]
  · by_cases h2 : qLeb a b = true
    · rw [qMin, if_pos h2, min_eq_left (qLeb_eq a b |>.mp h2)]
    · rw [qMin, if_neg h2, min_eq_right h]

theorem qMax_eq (a b : ℚ) : qMax a b = max a b := by
  rcases le_total b a with h | h
  · rw [qMax, if_pos (qLeb_eq b a |>.mpr h), max_eq_left h]
  · by_cases h2 : qLeb b a = true
    · rw [qMax, if_pos h2, max_eq_left (qLeb_eq b a |>.mp h2)]
    · rw [qMax, if_neg h2, max_eq_right h]

/-- Modelled from the spec: `decimal_mult_amount` (`storage.rs` is not under
`src/`).  Spec §4.2 mandates fixed-point rate times amount with fractional
tokens truncated; for a nonnegative rational this is the floor of `r·a`
(and a negative product truncates to 0, as `to_u64` on a negative decimal
falls back to the default). -/
def decimalMultAmount (r : ℚ) (a : Nat) : Nat :=
  let p := qMul r ((a : Int) : ℚ)
  (p.num / (p.den : Int)).toNat

/-- Stable insertion of a slash into a list sorted by ascending epoch;
used to model `slashes.sort_by_key(|s| s.epoch)`. -/
def insertSlashByEpoch (x : Slash) : List Slash → List Slash
  | [] => [x]
  | y :: ys =>
    if y.epoch < x.epoch then y :: insertSlashByEpoch x ys
    else x :: y :: ys

/-- Stable sort of slashes by ascending epoch
(`slashes.sort_by_key(|s| s.epoch)` in `get_slashed_amount`). -/
def sortSlashesByEpoch (l : List Slash) : List Slash :=
  l.foldr insertSlashByEpoch []

/-- Inner loop of `get_slashed_amount` over `computed_amounts`: entries whose
`epoch + unbonding_len` is strictly below the current slash's epoch are
dropped, each subtracting its amount from the running amount with
saturation (`checked_sub(..).unwrap_or_default()`); the rest are kept in
order.  Returns the updated running amount and the kept entries. -/
def gsaDrop (ub infractionEpoch : Nat) :
    List SlashedAmount → Nat → Nat × List SlashedAmount
  | [], updated => (updated, [])
  | sa :: rest, updated =>
    if sa.epoch + ub < infractionEpoch then
      gsaDrop ub infractionEpoch rest (updated - sa.amount)
    else
      let r := gsaDrop ub infractionEpoch rest updated
      (r.1, sa :: r.2)

/-- Main loop of `get_slashed_amount` over the sorted slashes: drop the
expired computed entries, then push `{epoch, rate · updated}`. -/
def gsaLoop (ub : Nat) :
    List Slash → Nat → List SlashedAmount → Nat × List SlashedAmount
  | [], updated, computed => (updated, computed)
  | s :: rest, updated, computed =>
    let r := gsaDrop ub s.epoch computed updated
    gsaLoop ub rest r.1
      (r.2 ++ [⟨decimalMultAmount s.rate r.1, s.epoch⟩])

/-- Embedding of `get_slashed_amount` (`lib.rs` lines 1686-1739): sorts the
slashes by epoch, runs the iterative computation, and returns the running
amount minus the total of the remaining computed entries, saturating at 0
(the final `checked_sub(..).unwrap_or_default()` followed by `.change()`). -/
def getSlashedAmount (p : PosParams) (amount : Nat) (slashes : List Slash) :
    Int :=
  let sorted := sortSlashesByEpoch slashes
  let r := gsaLoop p.unbondingLen sorted amount []
  ((r.1 - (r.2.map SlashedAmount.amount).sum : Nat) : Int)

/-- Spec-side definition, following the §4.6 pseudocode of the spec word for
word: for each slash in ascending-epoch order, drop from `computed` every
entry whose `epoch + unbonding_len < slash.epoch` (subtracting its slashed
amount from `updated`, saturating at 0), push `{epoch, rate · updated}`,
and finally return `saturating(updated − Σ computed.slashed)`.  The dropped
entries are described by a filter here, in contrast to the sequential
index-based removal of the source. -/
def slashedAmountSpecStep (ub : Nat) (st : Nat × List SlashedAmount)
    (s : Slash) : Nat × List SlashedAmount :=
  let dropped := st.2.filter (fun sa => sa.epoch + ub < s.epoch)
  let kept := st.2.filter (fun sa => ¬ (sa.epoch + ub < s.epoch))
  let updated := dropped.foldl (fun u sa => u - sa.amount) st.1
  (updated, kept ++ [⟨decimalMultAmount s.rate updated, s.epoch⟩])

/-- Spec-side slashed-amount computation (spec §4.6 pseudocode). -/
def slashedAmountSpec (p : PosParams) (amount : Nat) (slashes : List Slash) :
    Int :=
  let r := (sortSlashesByEpoch slashes).foldl
    (slashedAmountSpecStep p.unbondingLen) (amount, [])
  ((r.1 - (r.2.map SlashedAmount.amount).sum : Nat) : Int)

theorem gsaDrop_eq_filter (ub e : Nat) (l : List SlashedAmount) (u : Nat) :
    gsaDrop ub e l u =
      ((l.filter (fun sa => sa.epoch + ub < e)).foldl
          (fun acc sa => acc - sa.amount) u,
        l.filter (fun sa => ¬ (sa.epoch + ub < e))) := by
  induction l generalizing u with
  | nil => simp [gsaDrop]
  | cons sa rest ih =>
    by_cases h : sa.epoch + ub < e
    · simp [gsaDrop, h, List.filter, ih]
    · simp [gsaDrop, h, List.filter, ih]

theorem gsaLoop_eq_foldl (ub : Nat) (l : List Slash) (u : Nat)
    (c : List SlashedAmount) :
    gsaLoop ub l u c = l.foldl (slashedAmountSpecStep ub) (u, c) := by
  induction l generalizing u c with
  | nil => simp [gsaLoop]
  | cons s rest ih =>
    simp only [gsaLoop, List.foldl_cons, gsaDrop_eq_filter,
      slashedAmountSpecStep, ih]

/-- The source helper agrees with the spec pseudocode on every input. -/
theorem getSlashedAmount_eq_spec (p : PosParams) (amount : Nat)
    (slashes : List Slash) :
    getSlashedAmount p amount slashes = slashedAmountSpec p amount slashes := by
  simp [getSlashedAmount, slashedAmountSpec, gsaLoop_eq_foldl]

/-! ### The PoS state

Storage is modelled as explicit functional state.  The two validator sets of
an epoch are nested ordered maps `stake → position → address` in storage;
here each is a list of entries with unique `(stake, position)` keys, and
every iteration-order-dependent read of the source (first/last position in a
bucket, min/max stake) is modelled by the corresponding min/max over the
list. -/

/-- One entry of an ordered validator set: the outer key (stake), the inner
key (position in the equal-stake bucket) and the stored address. -/
structure SetEntry where
  stake : Nat
  pos : Nat
  addr : Addr
deriving DecidableEq, Repr

/-- An unbond record of a validator's total-unbonded map, from `storage.rs`
(`UnbondRecord`): the face amount and the bond start epoch. -/
structure UnbondRecord where
  amount : Nat
  start : Nat
deriving DecidableEq, Repr

/-- The PoS storage state.  Epoched values are association lists
`epoch ↦ value` (one entry per written epoch); per-epoch collections are
functions from the epoch. -/
structure PosState where
  consensusSet : Nat → List SetEntry
  belowCapSet : Nat → List SetEntry
  positions : Nat → List (Addr × Nat)
  states : Addr → List (Nat × ValidatorState)
  deltas : Addr → List (Nat × Int)
  totalDeltas : List (Nat × Int)
  bonds : Addr → Addr → List (Nat × Int)
  unbonds : Addr → Addr → List ((Nat × Nat) × Nat)
  unbondRecords : Addr → Nat → List UnbondRecord
  slashesOf : Addr → List Slash
  enqueuedSlashes : Nat → List (Addr × List Slash)
  lastSlashEpoch : Addr → Option Nat
  balanceOf : Addr → Option Nat
  validatorAddrs : Nat → List Addr
  consensusKeys : List Nat

/-- Errors of the PoS operations.  The `aborted` variant stands for the
`expect`/`unwrap` panics and internal storage errors of the source; the
others mirror the error enums of `lib.rs`. -/
inductive PosErr where
  | alreadyValidator : PosErr
  | notAValidator : PosErr
  | sourceMustNotBeAValidator : PosErr
  | inactiveValidator : PosErr
  | validatorFrozen : PosErr
  | unbondAmountGreaterThanBond : PosErr
  | noUnbondFound : PosErr
  | notJailed : Addr → Nat → PosErr
  | notEligible : PosErr
  | aborted : PosErr
deriving DecidableEq, Repr

/-- Lift an `Option` produced by a source `expect`/`unwrap` into the error
monad; `none` is the panic case. -/
def expectO : Option α → Except PosErr α
  | some x => .ok x
  | none => .error .aborted

/-- Pointwise update of an `Addr`-indexed map. -/
def updA (f : Addr → β) (a : Addr) (b : β) : Addr → β :=
  fun x => if x = a then b else f x

/-- Pointwise update of a `Nat`-indexed map. -/
def updN (f : Nat → β) (n : Nat) (b : β) : Nat → β :=
  fun x => if x = n then b else f x

/-- Pointwise update of a doubly `Addr`-indexed map. -/
def updAA (f : Addr → Addr → β) (a b : Addr) (v : β) : Addr → Addr → β :=
  fun x y => if x = a ∧ y = b then v else f x y

/-- Pointwise update of an `Addr × Nat`-indexed map. -/
def updAN (f : Addr → Nat → β) (a : Addr) (n : Nat) (v : β) : Addr → Nat → β :=
  fun x y => if x = a ∧ y = n then v else f x y

/-- Write into an association list keyed by `Addr`, overwriting the key. -/
def assocSetA (l : List (Addr × β)) (a : Addr) (v : β) : List (Addr × β) :=
  l.filter (fun q => !(q.1 == a)) ++ [(a, v)]

/-- Exact lookup in an association list keyed by `Addr`. -/
def assocGetA (l : List (Addr × β)) (a : Addr) : Option β :=
  (l.find? (fun q => q.1 == a)).map Prod.snd

/-! ### Epoched data primitives

Modelled from the spec (§4.1 and §3): `epoched.rs` is not under `src/`.  A
plain epoched value reads as the value at the greatest stored epoch `≤ e`; a
delta epoched value reads as the sum of the deltas stored at epochs `≤ e`
(`None` when nothing at all is stored at or before `e`); `set` at offset `o`
writes the exact entry at `e_c + o`.  The `last_update` bookkeeping is not
modelled: reads outside the valid window are the caller's responsibility in
the source and do not occur in the verified scenarios. -/

/-- Write an epoched entry at an exact epoch, overwriting the key. -/
def epochedWrite (l : List (Nat × α)) (e : Nat) (v : α) : List (Nat × α) :=
  l.filter (fun q => !(q.1 == e)) ++ [(e, v)]

/-- The entry with the greatest stored epoch `≤ e`, if any. -/
def epochedLatest (l : List (Nat × α)) (e : Nat) : Option (Nat × α) :=
  l.foldl
    (fun acc q =>
      if q.1 ≤ e then
        match acc with
        | none => some q
        | some r => if r.1 ≤ q.1 then some q else some r
      else acc)
    none

/-- Read of a plain epoched value (`Epoched::get`). -/
def epochedGet (l : List (Nat × α)) (e : Nat) : Option α :=
  (epochedLatest l e).map Prod.snd

/-- Read of a delta epoched value's sum (`EpochedDelta::get_sum`). -/
def deltaSum (l : List (Nat × Int)) (e : Nat) : Option Int :=
  if l.any (fun q => q.1 ≤ e) then
    some (((l.filter (fun q => q.1 ≤ e)).map Prod.snd).sum)
  else none

/-- Read of the delta stored at an exact epoch
(`EpochedDelta::get_delta_val`). -/
def deltaVal (l : List (Nat × Int)) (e : Nat) : Option Int :=
  (l.find? (fun q => q.1 == e)).map Prod.snd

/-! ### Validator set helpers -/

/-- Minimum of a list of naturals, if non-empty. -/
def listMin? : List Nat → Option Nat
  | [] => none
  | x :: xs =>
    match listMin? xs with
    | none => some x
    | some m => some (min x m)

/-- Maximum of a list of naturals, if non-empty. -/
def listMax? : List Nat → Option Nat
  | [] => none
  | x :: xs =>
    match listMax? xs with
    | none => some x
    | some m => some (max x m)

/-- The equal-stake bucket of a validator set. -/
def bucketOf (l : List SetEntry) (stake : Nat) : List SetEntry :=
  l.filter (fun en => en.stake == stake)

/-- `find_first_position`: the lowest position in a stake bucket. -/
def findFirstPositionIn (l : List SetEntry) (stake : Nat) : Option Nat :=
  listMin? ((bucketOf l stake).map SetEntry.pos)

/-- `find_last_position`: the greatest position in a stake bucket. -/
def findLastPositionIn (l : List SetEntry) (stake : Nat) : Option Nat :=
  listMax? ((bucketOf l stake).map SetEntry.pos)

/-- `find_next_position`: one past the greatest position in the bucket, or 0
when the bucket is empty. -/
def findNextPositionIn (l : List SetEntry) (stake : Nat) : Nat :=
  match listMax? ((bucketOf l stake).map SetEntry.pos) with
  | some m => m + 1
  | none => 0

/-- Lookup of an inner-map entry of a validator set at `(stake, position)`. -/
def setLookup (l : List SetEntry) (stake pos : Nat) : Option Addr :=
  (l.find? (fun en => en.stake == stake && en.pos == pos)).map SetEntry.addr

/-- Removal of the inner-map entry at `(stake, position)`. -/
def setRemoveEntry (l : List SetEntry) (stake pos : Nat) : List SetEntry :=
  l.filter (fun en => !(en.stake == stake && en.pos == pos))

/-- `get_min_consensus_validator_amount`: the first key in ascending stake
order, or 0 for an empty set (`unwrap_or_default`). -/
def getMinConsensusAmount (l : List SetEntry) : Nat :=
  (listMin? (l.map SetEntry.stake)).getD 0

/-- `get_max_below_capacity_validator_amount`: the first key in the
reverse-ordered below-capacity set, i.e. the maximum stake, when the set is
non-empty. -/
def getMaxBelowCapAmount (l : List SetEntry) : Option Nat :=
  listMax? (l.map SetEntry.stake)

/-- `insert_validator_into_set` on the consensus set of `epoch`: append the
address at the next free position of the stake bucket and record the
position in the per-epoch position index. -/
def insertValidatorIntoConsensus (s : PosState) (epoch stake : Nat) (a : Addr) :
    PosState :=
  let nextPos := findNextPositionIn (s.consensusSet epoch) stake
  { s with
    consensusSet :=
      updN s.consensusSet epoch (s.consensusSet epoch ++ [⟨stake, nextPos, a⟩])
    positions :=
      updN s.positions epoch (assocSetA (s.positions epoch) a nextPos) }

/-- `insert_validator_into_set` on the below-capacity set of `epoch`. -/
def insertValidatorIntoBelowCap (s : PosState) (epoch stake : Nat) (a : Addr) :
    PosState :=
  let nextPos := findNextPositionIn (s.belowCapSet epoch) stake
  { s with
    belowCapSet :=
      updN s.belowCapSet epoch (s.belowCapSet epoch ++ [⟨stake, nextPos, a⟩])
    positions :=
      updN s.positions epoch (assocSetA (s.positions epoch) a nextPos) }

/-- Modelled from the spec: `get_position` of the epoched position index
(`epoched.rs` is not under `src/`); per spec §3 the index is a per-epoch map
`address → position`, read here at the greatest epoch `≤ e` holding an entry
for the address (`read_validator_set_position`). -/
def getPosition (s : PosState) : Nat → Addr → Option Nat
  | e, a =>
    match assocGetA (s.positions e) a with
    | some p => some p
    | none =>
      match e with
      | 0 => none
      | e' + 1 => getPosition s e' a

/-- Write of an epoched validator state at `current_epoch + offset`
(`validator_state_handle(..).set`). -/
def stateWrite (s : PosState) (a : Addr) (v : ValidatorState)
    (currentEpoch offset : Nat) : PosState :=
  { s with
    states := updA s.states a (epochedWrite (s.states a) (currentEpoch + offset) v) }

/-- `validator_state_handle(..).get` at an epoch. -/
def validatorStateAt (s : PosState) (a : Addr) (e : Nat) :
    Option ValidatorState :=
  epochedGet (s.states a) e

/-- `is_validator`: the address has a state at the epoch. -/
def isValidator (s : PosState) (a : Addr) (e : Nat) : Bool :=
  (validatorStateAt s a e).isSome

/-- `read_validator_stake`: sum of the validator's deltas up to the epoch,
converted to an amount; `none` when the address has no deltas there. -/
def readValidatorStakeOpt (s : PosState) (a : Addr) (e : Nat) : Option Nat :=
  (deltaSum (s.deltas a) e).map Int.toNat

/-- `read_total_stake`: sum of the total deltas up to the epoch
(`unwrap_or_default`). -/
def readTotalStake (s : PosState) (e : Nat) : Nat :=
  ((deltaSum s.totalDeltas e).map Int.toNat).getD 0

/-- `update_validator_deltas`: add `delta` to the validator's delta entry at
`current_epoch + offset`. -/
def updateValidatorDeltas (s : PosState) (a : Addr) (delta : Int)
    (currentEpoch offset : Nat) : PosState :=
  let v := (deltaVal (s.deltas a) (currentEpoch + offset)).getD 0
  { s with
    deltas := updA s.deltas a
      (epochedWrite (s.deltas a) (currentEpoch + offset) (v + delta)) }

/-- `update_total_deltas`: add `delta` to the total-deltas entry at
`current_epoch + offset`. -/
def updateTotalDeltas (s : PosState) (delta : Int) (currentEpoch offset : Nat) :
    PosState :=
  let v := (deltaVal s.totalDeltas (currentEpoch + offset)).getD 0
  { s with
    totalDeltas := epochedWrite s.totalDeltas (currentEpoch + offset) (v + delta) }

/-- The epochs `start, start+1, …, start+len-1` (`Epoch::iter_range`). -/
def epochsRange (start len : Nat) : List Nat :=
  (List.range len).map (fun i => start + i)

/-- The epochs `a, …, b` inclusive (`Epoch::iter_bounds_inclusive`). -/
def epochsInclusive (a b : Nat) : List Nat :=
  if a ≤ b then (List.range (b - a + 1)).map (fun i => a + i) else []

/-! ### Operations of `lib.rs` -/

/-- Embedding of `insert_validator_into_validator_set` (`lib.rs` 947-1041):
place a new validator with the given stake into the consensus set of
`current_epoch + offset` when a slot is free, otherwise swap with the
last-positioned minimum-stake consensus validator when the stake is
strictly greater than the minimum, otherwise into below-capacity. -/
def insertValidatorIntoValidatorSet (s : PosState) (p : PosParams)
    (address : Addr) (stake currentEpoch offset : Nat) :
    Except PosErr PosState := do
  let targetEpoch := currentEpoch + offset
  let consensusPre := s.consensusSet targetEpoch
  let numConsensusValidators := consensusPre.length
  if numConsensusValidators < p.maxValidatorSlots then
    let s1 := insertValidatorIntoConsensus s targetEpoch stake address
    return stateWrite s1 address .consensus currentEpoch offset
  else
    let minConsensusAmount := getMinConsensusAmount consensusPre
    if minConsensusAmount < stake then
      let lastMinConsensusPosition ←
        expectO (findLastPositionIn consensusPre minConsensusAmount)
      let removed ←
        expectO (setLookup consensusPre minConsensusAmount
          lastMinConsensusPosition)
      let s1 := { s with
        consensusSet := updN s.consensusSet targetEpoch
          (setRemoveEntry consensusPre minConsensusAmount
            lastMinConsensusPosition) }
      let s2 := insertValidatorIntoBelowCap s1 targetEpoch minConsensusAmount
        removed
      let s3 := stateWrite s2 removed .belowCapacity currentEpoch offset
      let s4 := insertValidatorIntoConsensus s3 targetEpoch stake address
      return stateWrite s4 address .consensus currentEpoch offset
    else
      let s1 := insertValidatorIntoBelowCap s targetEpoch stake address
      return stateWrite s1 address .belowCapacity currentEpoch offset

/-- The `in_consensus` test of `update_validator_set`: the consensus bucket
of the pre-change stake holds the validator's position and the stored
address is the validator. -/
def checkInConsensus (l : List SetEntry) (v : Addr) (stake pos : Nat) : Bool :=
  match setLookup l stake pos with
  | some a => a == v
  | none => false

/-- Embedding of `update_validator_set` (`lib.rs` 1045-1238): apply a stake
change to an already-placed validator at the pipeline epoch, swapping it
between the consensus and below-capacity sets as needed. -/
def updateValidatorSet (s : PosState) (p : PosParams) (validator : Addr)
    (tokenChange : Int) (currentEpoch : Nat) : Except PosErr PosState := do
  if tokenChange = 0 then
    return s
  let epoch := currentEpoch + p.pipelineLen
  let consensusPre := s.consensusSet epoch
  let belowCapPre := s.belowCapSet epoch
  let tokensPre := (readValidatorStakeOpt s validator epoch).getD 0
  let tokensPost := ((tokensPre : Int) + tokenChange).toNat
  let position ← expectO (getPosition s epoch validator)
  let inConsensus := checkInConsensus consensusPre validator tokensPre position
  if inConsensus then
    let consensusRemoved := setRemoveEntry consensusPre tokensPre position
    let s1 := { s with consensusSet := updN s.consensusSet epoch consensusRemoved }
    let maxBelowCapacityAmount := (getMaxBelowCapAmount belowCapPre).getD 0
    if tokensPost < maxBelowCapacityAmount then
      let lowestPosition ←
        expectO (findFirstPositionIn belowCapPre maxBelowCapacityAmount)
      let removedMaxBelowCapacity ←
        expectO (setLookup belowCapPre maxBelowCapacityAmount lowestPosition)
      let s2 := { s1 with
        belowCapSet := updN s1.belowCapSet epoch
          (setRemoveEntry belowCapPre maxBelowCapacityAmount lowestPosition) }
      let s3 := insertValidatorIntoConsensus s2 epoch maxBelowCapacityAmount
        removedMaxBelowCapacity
      let s4 := stateWrite s3 removedMaxBelowCapacity .consensus currentEpoch
        p.pipelineLen
      let s5 := insertValidatorIntoBelowCap s4 epoch tokensPost validator
      return stateWrite s5 validator .belowCapacity currentEpoch p.pipelineLen
    else
      return insertValidatorIntoConsensus s1 epoch tokensPost validator
  else
    let belowCapRemoved := setRemoveEntry belowCapPre tokensPre position
    let s1 := { s with belowCapSet := updN s.belowCapSet epoch belowCapRemoved }
    let minConsensusAmount := getMinConsensusAmount consensusPre
    if minConsensusAmount < tokensPost then
      let lastPositionOfMin ←
        expectO (findLastPositionIn consensusPre minConsensusAmount)
      let removedMinConsensus ←
        expectO (setLookup consensusPre minConsensusAmount lastPositionOfMin)
      let s2 := { s1 with
        consensusSet := updN s1.consensusSet epoch
          (setRemoveEntry consensusPre minConsensusAmount lastPositionOfMin) }
      let s3 := insertValidatorIntoBelowCap s2 epoch minConsensusAmount
        removedMinConsensus
      let s4 := stateWrite s3 removedMinConsensus .belowCapacity currentEpoch
        p.pipelineLen
      let s5 := insertValidatorIntoConsensus s4 epoch tokensPost validator
      return stateWrite s5 validator .consensus currentEpoch p.pipelineLen
    else
      let s2 := insertValidatorIntoBelowCap s1 epoch tokensPost validator
      return stateWrite s2 validator .belowCapacity currentEpoch p.pipelineLen

/-- Map-insert of a set entry by its `(stake, position)` key, used by the
epoch copy. -/
def mapInsertSetEntry (l : List SetEntry) (en : SetEntry) : List SetEntry :=
  l.filter (fun x => !(x.stake == en.stake && x.pos == en.pos)) ++ [en]

/-- Embedding of `copy_validator_sets_and_positions` (`lib.rs` 1241-1342):
copy both validator sets, the position index, and the validator-address set
of `target_epoch - 1` into `target_epoch`. -/
def copyValidatorSetsAndPositions (s : PosState) (targetEpoch : Nat) :
    PosState :=
  let prevEpoch := targetEpoch - 1
  let s1 := { s with
    consensusSet := updN s.consensusSet targetEpoch
      ((s.consensusSet prevEpoch).foldl mapInsertSetEntry
        (s.consensusSet targetEpoch))
    belowCapSet := updN s.belowCapSet targetEpoch
      ((s.belowCapSet prevEpoch).foldl mapInsertSetEntry
        (s.belowCapSet targetEpoch)) }
  let s2 := { s1 with
    positions := updN s1.positions targetEpoch
      ((s1.positions prevEpoch).foldl
        (fun l (q : Addr × Nat) => assocSetA l q.1 q.2)
        (s1.positions targetEpoch)) }
  { s2 with
    validatorAddrs := updN s2.validatorAddrs targetEpoch
      ((s2.validatorAddrs prevEpoch).foldl
        (fun l a => if a ∈ l then l else l ++ [a])
        (s2.validatorAddrs targetEpoch)) }

/-- Embedding of `transfer_tokens` (`lib.rs` 1967-2009): when the source has
a balance entry, move `amount` (spending saturates; an insufficient balance
is only logged), otherwise log and do nothing; both paths return `Ok`.  The
`Amount::spend`/`receive` arithmetic is modelled from the spec (§4.2
saturating subtraction; `types/token.rs` is not under `src/`). -/
def transferTokens (s : PosState) (amount : Nat) (src dest : Addr) :
    Except PosErr PosState :=
  match s.balanceOf src with
  | some srcBalance =>
    let newSrcBalance := srcBalance - amount
    let destBalance := (s.balanceOf dest).getD 0
    let newDestBalance := destBalance + amount
    let s1 := { s with balanceOf := updA s.balanceOf src (some newSrcBalance) }
    .ok { s1 with balanceOf := updA s1.balanceOf dest (some newDestBalance) }
  | none => .ok s

/-- Embedding of `credit_tokens` (`core/src/ledger/storage_api/token.rs`):
add `amount` to the destination balance (the total-supply bookkeeping is not
modelled). -/
def creditTokens (s : PosState) (dest : Addr) (amount : Nat) : PosState :=
  { s with
    balanceOf := updA s.balanceOf dest (some ((s.balanceOf dest).getD 0 + amount)) }

/-- Embedding of `bond_tokens` (`lib.rs` 847-943). -/
def bondTokens (s : PosState) (p : PosParams) (source : Option Addr)
    (validator : Addr) (amount : Nat) (currentEpoch : Nat) :
    Except PosErr PosState := do
  let amountC : Int := (amount : Int)
  let pipelineEpoch := currentEpoch + p.pipelineLen
  match source with
  | some src =>
    if src ≠ validator ∧ isValidator s src pipelineEpoch then
      throw .sourceMustNotBeAValidator
  | none => pure ()
  if (validatorStateAt s validator pipelineEpoch).isNone then
    throw .notAValidator
  if (epochsRange currentEpoch p.pipelineLen).any
      (fun e => validatorStateAt s validator e == some .inactive) then
    throw .inactiveValidator
  let src := source.getD validator
  let curRemain := (deltaVal (s.bonds src validator) pipelineEpoch).getD 0
  let s1 := { s with
    bonds := updAA s.bonds src validator
      (epochedWrite (s.bonds src validator) pipelineEpoch
        (curRemain + amountC)) }
  let isJailedAtPipeline :=
    validatorStateAt s1 validator pipelineEpoch == some .jailed
  let s2 ←
    if isJailedAtPipeline then pure s1
    else updateValidatorSet s1 p validator amountC currentEpoch
  let s3 := updateValidatorDeltas s2 validator amountC currentEpoch
    p.pipelineLen
  let s4 := updateTotalDeltas s3 amountC currentEpoch p.pipelineLen
  transferTokens s4 amount src Addr.pos

/-- Embedding of `is_validator_frozen` (`lib.rs` 3553-3571). -/
def isValidatorFrozen (s : PosState) (validator : Addr) (currentEpoch : Nat)
    (p : PosParams) : Bool :=
  match s.lastSlashEpoch validator with
  | some lastEpoch => decide (currentEpoch < lastEpoch + p.unbondingLen + 1)
  | none => false

/-- Insertion step of an insertion sort with the given strict order. -/
def insertSortedBy (lt : α → α → Bool) (x : α) : List α → List α
  | [] => [x]
  | y :: ys => if lt y x then y :: insertSortedBy lt x ys else x :: y :: ys

/-- Stable insertion sort with the given strict order; models storage
iteration in key order over an association list. -/
def sortListBy (lt : α → α → Bool) (l : List α) : List α :=
  l.foldr (insertSortedBy lt) []

/-- The newest-first consumption loop of `unbond_tokens`: walk the bond
entries (already reversed to descending start epoch) while the remaining
amount is positive, taking `min` of the entry and the remainder.  Returns
the consumed chunks `(bond start epoch, original bond amount, unbonded
chunk)`. -/
def unbondChunks : List (Nat × Int) → Nat → List (Nat × Nat × Nat)
  | [], _ => []
  | (bondEpoch, bondAmnt) :: rest, remaining =>
    if remaining = 0 then []
    else
      let bondAmount := bondAmnt.toNat
      let toUnbond := min bondAmount remaining
      (bondEpoch, bondAmount, toUnbond) :: unbondChunks rest
        (remaining - toUnbond)

/-- Map-insert of an unbond chunk into an unbond entry list at key
`(withdraw_epoch, start_epoch)`, adding to a present entry. -/
def unbondMergeList (l : List ((Nat × Nat) × Nat))
    (withdrawEpoch startEpoch amount : Nat) : List ((Nat × Nat) × Nat) :=
  l.filter (fun q => !(q.1 == (withdrawEpoch, startEpoch))) ++
    [((withdrawEpoch, startEpoch),
      ((l.find? (fun q => q.1 == (withdrawEpoch, startEpoch))).map
        Prod.snd).getD 0 + amount)]

/-- `update_unbond` (`lib.rs` 1741-1761): add the chunk to the unbond entry
at `(withdraw_epoch, start_epoch)`. -/
def updateUnbond (s : PosState) (src validator : Addr)
    (withdrawEpoch startEpoch amount : Nat) : PosState :=
  { s with
    unbonds := updAA s.unbonds src validator
      (unbondMergeList (s.unbonds src validator) withdrawEpoch startEpoch
        amount) }

/-- Push onto a validator's per-epoch unbond-record list
(`unbond_records_handle(..).at(..).push`). -/
def pushUnbondRecord (s : PosState) (validator : Addr) (epoch : Nat)
    (r : UnbondRecord) : PosState :=
  { s with
    unbondRecords := updAN s.unbondRecords validator epoch
      (s.unbondRecords validator epoch ++ [r]) }

/-- One iteration of the unbond while-loop's record push: the consumed
chunk `(bond start, bond amount, unbonded)` is recorded under the pipeline
epoch. -/
def unbondRecordStep (validator : Addr) (pipelineEpoch : Nat) (st : PosState)
    (c : Nat × Nat × Nat) : PosState :=
  pushUnbondRecord st validator pipelineEpoch ⟨c.2.2, c.1⟩

/-- One iteration of the unbond write-back loop: the bond entry at the
chunk's start epoch is set to the decremented value and the chunk is merged
into the unbond map at `(withdrawable_epoch, start_epoch)`. -/
def unbondWriteStep (src validator : Addr) (withdrawableEpoch : Nat)
    (st : PosState) (c : Nat × Nat × Nat) : PosState :=
  let st1 := { st with
    bonds := updAA st.bonds src validator
      (epochedWrite (st.bonds src validator) c.1
        ((c.2.1 - c.2.2 : Nat) : Int)) }
  updateUnbond st1 src validator withdrawableEpoch c.1 c.2.2

/-- Embedding of `unbond_tokens` (`lib.rs` 1476-1681). -/
def unbondTokens (s : PosState) (p : PosParams) (source : Option Addr)
    (validator : Addr) (amount : Nat) (currentEpoch : Nat) :
    Except PosErr PosState := do
  let amountC : Int := (amount : Int)
  let pipelineEpoch := currentEpoch + p.pipelineLen
  match source with
  | some src =>
    if src ≠ validator ∧ isValidator s src pipelineEpoch then
      throw .sourceMustNotBeAValidator
  | none => pure ()
  if ¬ isValidator s validator pipelineEpoch then
    throw .notAValidator
  if isValidatorFrozen s validator currentEpoch p then
    throw .validatorFrozen
  let src := source.getD validator
  let remainingAtPipeline :=
    (deltaSum (s.bonds src validator) pipelineEpoch).getD 0
  if remainingAtPipeline < amountC then
    throw .unbondAmountGreaterThanBond
  let withdrawableEpoch := currentEpoch + p.pipelineLen + p.unbondingLen
  let bondsDescending :=
    (sortListBy (fun a b => a.1 < b.1) (s.bonds src validator)).reverse
  let chunks := unbondChunks bondsDescending amount
  let amountAfterSlashing : Int :=
    (chunks.map (fun c =>
      getSlashedAmount p c.2.2
        ((s.slashesOf validator).filter (fun sl => c.1 ≤ sl.epoch)))).sum
  let s1 := chunks.foldl (unbondRecordStep validator pipelineEpoch) s
  let s2 := chunks.foldl (unbondWriteStep src validator withdrawableEpoch) s1
  let stakeAtPipeline : Int :=
    (((readValidatorStakeOpt s2 validator pipelineEpoch).getD 0 : Nat) : Int)
  let tokenChange := min amountAfterSlashing stakeAtPipeline
  let isJailedAtPipeline :=
    validatorStateAt s2 validator pipelineEpoch == some .jailed
  let s3 ←
    if isJailedAtPipeline then pure s2
    else updateValidatorSet s2 p validator (-tokenChange) currentEpoch
  let s4 := updateValidatorDeltas s3 validator (-tokenChange) currentEpoch
    p.pipelineLen
  return updateTotalDeltas s4 (-tokenChange) currentEpoch p.pipelineLen

/-- Embedding of `withdraw_tokens` (`lib.rs` 1826-1911): sum the matured
unbond entries after applying the slashes finalized before each unbond
matured, delete them, and transfer the total from the PoS account to the
source.  Returns the withdrawn amount. -/
def withdrawTokens (s : PosState) (p : PosParams) (source : Option Addr)
    (validator : Addr) (currentEpoch : Nat) :
    Except PosErr (PosState × Nat) := do
  let src := source.getD validator
  let entries := s.unbonds src validator
  if entries.isEmpty then
    throw .noUnbondFound
  let sorted := sortListBy
    (fun a b => a.1.1 < b.1.1 ∨ (a.1.1 = b.1.1 ∧ a.1.2 < b.1.2)) entries
  let r := sorted.foldl
    (fun (acc : Nat × List (Nat × Nat)) en =>
      let withdrawEpoch := en.1.1
      let startEpoch := en.1.2
      if currentEpoch < withdrawEpoch then acc
      else
        let slashesForThisUnbond := (s.slashesOf validator).filter
          (fun sl => startEpoch ≤ sl.epoch ∧
            sl.epoch < withdrawEpoch - p.unbondingLen)
        let amountAfterSlashing :=
          (getSlashedAmount p en.2 slashesForThisUnbond).toNat
        (acc.1 + amountAfterSlashing, acc.2 ++ [en.1]))
    (0, [])
  let s1 := { s with
    unbonds := updAA s.unbonds src validator
      (entries.filter (fun en => !(r.2.contains en.1))) }
  let s2 ← transferTokens s1 r.1 Addr.pos src
  return (s2, r.1)

/-- Embedding of `become_validator` (`lib.rs` 1764-1823).  The raw-hash
mapping, the epoched consensus key and the commission data are not carried
in the state (no claim depends on them); the consensus-key uniqueness set
is. -/
def becomeValidator (s : PosState) (p : PosParams) (address : Addr)
    (consensusKey : Nat) (currentEpoch : Nat) : Except PosErr PosState := do
  if s.consensusKeys.contains consensusKey then
    throw .aborted
  let s0 := { s with consensusKeys := s.consensusKeys ++ [consensusKey] }
  let pipelineEpoch := currentEpoch + p.pipelineLen
  let s1 := { s0 with
    validatorAddrs := updN s0.validatorAddrs pipelineEpoch
      (if address ∈ s0.validatorAddrs pipelineEpoch then
        s0.validatorAddrs pipelineEpoch
      else s0.validatorAddrs pipelineEpoch ++ [address]) }
  let s2 := { s1 with
    deltas := updA s1.deltas address
      (epochedWrite (s1.deltas address) pipelineEpoch 0) }
  insertValidatorIntoValidatorSet s2 p address 0 currentEpoch p.pipelineLen

/-- A genesis validator (`types.rs` `GenesisValidator`, with the key
abstracted to a number and the commission data dropped). -/
structure GenesisValidator where
  address : Addr
  tokens : Nat
  consensusKey : Nat
deriving Repr

/-- Embedding of `init_genesis` (`lib.rs` 365-466): insert each genesis
validator at offset 0, write its deltas and self-bond, write the total
deltas, credit the total to the PoS account, and copy the validator sets to
the pipeline epochs. -/
def initGenesis (s : PosState) (p : PosParams)
    (validators : List GenesisValidator) (currentEpoch : Nat) :
    Except PosErr PosState := do
  let s1 ← validators.foldlM
    (fun st v => do
      if st.consensusKeys.contains v.consensusKey then
        throw PosErr.aborted
      let st0 := { st with consensusKeys := st.consensusKeys ++ [v.consensusKey] }
      let st1 ← insertValidatorIntoValidatorSet st0 p v.address v.tokens
        currentEpoch 0
      let st2 := { st1 with
        validatorAddrs := updN st1.validatorAddrs currentEpoch
          (if v.address ∈ st1.validatorAddrs currentEpoch then
            st1.validatorAddrs currentEpoch
          else st1.validatorAddrs currentEpoch ++ [v.address]) }
      let st3 := { st2 with
        deltas := updA st2.deltas v.address
          (epochedWrite (st2.deltas v.address) currentEpoch (v.tokens : Int)) }
      pure { st3 with
        bonds := updAA st3.bonds v.address v.address
          (epochedWrite (st3.bonds v.address v.address) currentEpoch
            (v.tokens : Int)) })
    s
  let totalBonded := (validators.map GenesisValidator.tokens).sum
  let s2 := { s1 with
    totalDeltas := epochedWrite s1.totalDeltas currentEpoch (totalBonded : Int) }
  let s3 := creditTokens s2 Addr.pos totalBonded
  return (epochsRange (currentEpoch + 1) p.pipelineLen).foldl
    (fun st e => copyValidatorSetsAndPositions st e) s3

/-- Embedding of `compute_cubic_slash_rate` (`lib.rs` 2871-2918): over the
window `[e_i - W, e_i + W]`, sum for each epoch the enqueued infracting
validators' stakes at that epoch (one summand per enqueued slash) divided by
the total stake at that epoch, and return `9·f²`. -/
def computeCubicSlashRate (s : PosState) (p : PosParams)
    (infractionEpoch : Nat) : ℚ :=
  let startEpoch := infractionEpoch - p.cubicSlashingWindowLength
  let endEpoch := infractionEpoch + p.cubicSlashingWindowLength
  let sumVpFraction := (epochsInclusive startEpoch endEpoch).foldl
    (fun acc epoch =>
      let totalStake : ℚ := (readTotalStake s epoch : ℚ)
      let processingEpoch := epoch + p.unbondingLen + 1
      let infractingStake : ℚ := (s.enqueuedSlashes processingEpoch).foldl
        (fun acc2 q =>
          let validatorStake : ℚ :=
            (((readValidatorStakeOpt s q.1 epoch).getD 0 : Nat) : ℚ)
          q.2.foldl (fun a _ => qAdd a validatorStake) acc2)
        0
      qAdd acc (qDiv infractingStake totalStake))
    0
  qMul (qMul (9 : ℚ) sumVpFraction) sumVpFraction

/-- Embedding of `get_final_cubic_slash_rate` (`lib.rs` 2922-2937): the
cubic rate clamped between the slash type's base rate and 1. -/
def getFinalCubicSlashRate (s : PosState) (p : PosParams)
    (infractionEpoch : Nat) (currentSlashType : SlashType) : ℚ :=
  let cubicRate := computeCubicSlashRate s p infractionEpoch
  qMin (qMax cubicRate (currentSlashType.getSlashRate p)) 1

/-- Push a slash onto the enqueued-slashes nested map at
`(processing_epoch, validator)`. -/
def enqueueSlashPush (s : PosState) (processingEpoch : Nat) (validator : Addr)
    (sl : Slash) : PosState :=
  let l := s.enqueuedSlashes processingEpoch
  let l2 :=
    if l.any (fun q => q.1 == validator) then
      l.map (fun q => if q.1 == validator then (q.1, q.2 ++ [sl]) else q)
    else l ++ [(validator, [sl])]
  { s with enqueuedSlashes := updN s.enqueuedSlashes processingEpoch l2 }

/-- Embedding of `slash` (`lib.rs` 2942-3173): enqueue the evidence at
`infraction_epoch + unbonding_len + 1`, bump the validator's last-slash
epoch, remove the validator from its set at every epoch from the next
through the pipeline epoch (promoting the strongest below-capacity validator
at the pipeline epoch only), and mark the validator `Jailed` through the
pipeline. -/
def slash (s : PosState) (p : PosParams) (currentEpoch evidenceEpoch
    evidenceBlockHeight : Nat) (slashType : SlashType) (validator : Addr) :
    Except PosErr PosState := do
  let sl : Slash := ⟨evidenceEpoch, evidenceBlockHeight, slashType, 0⟩
  let processingEpoch := evidenceEpoch + p.unbondingLen + 1
  let pipelineEpoch := currentEpoch + p.pipelineLen
  let s1 := enqueueSlashPush s processingEpoch validator sl
  let s2 :=
    match s1.lastSlashEpoch validator with
    | none => { s1 with lastSlashEpoch := updA s1.lastSlashEpoch validator (some evidenceEpoch) }
    | some last =>
      if last < evidenceEpoch then
        { s1 with lastSlashEpoch := updA s1.lastSlashEpoch validator (some evidenceEpoch) }
      else s1
  let s3 ← (epochsInclusive (currentEpoch + 1) pipelineEpoch).foldlM
    (fun st epoch => do
      let prevState ← expectO (validatorStateAt st validator epoch)
      match prevState with
      | .consensus => do
        let amountPre := ((deltaSum (st.deltas validator) epoch).getD 0).toNat
        let valPosition ← expectO (assocGetA (st.positions epoch) validator)
        let st1 := { st with
          consensusSet := updN st.consensusSet epoch
            (setRemoveEntry (st.consensusSet epoch) amountPre valPosition) }
        if epoch = pipelineEpoch then
          match getMaxBelowCapAmount (st1.belowCapSet epoch) with
          | some maxBelowCapacityAmount => do
            let positionToPromote ← expectO
              (findFirstPositionIn (st1.belowCapSet epoch)
                maxBelowCapacityAmount)
            let maxBcValidator ← expectO
              (setLookup (st1.belowCapSet epoch) maxBelowCapacityAmount
                positionToPromote)
            let st2 := { st1 with
              belowCapSet := updN st1.belowCapSet epoch
                (setRemoveEntry (st1.belowCapSet epoch)
                  maxBelowCapacityAmount positionToPromote) }
            let st3 := insertValidatorIntoConsensus st2 epoch
              maxBelowCapacityAmount maxBcValidator
            pure (stateWrite st3 maxBcValidator .consensus currentEpoch
              p.pipelineLen)
          | none => pure st1
        else
          pure st1
      | .belowCapacity => do
        let amountPre := ((deltaSum (st.deltas validator) epoch).getD 0).toNat
        let valPosition ← expectO (assocGetA (st.positions epoch) validator)
        pure { st with
          belowCapSet := updN st.belowCapSet epoch
            (setRemoveEntry (st.belowCapSet epoch) amountPre valPosition) }
      | .inactive => throw PosErr.aborted
      | .jailed => pure st)
    s2
  return (List.range p.pipelineLen).foldl
    (fun st off => stateWrite st validator .jailed currentEpoch (off + 1)) s3

/-- The slashes of a validator applicable to an unbond record during
`process_slashes`: those at or after the record's start whose epoch plus the
unbonding length lies strictly before the infraction epoch. -/
def prevSlashesFor (slashList : List Slash)
    (unbondStart infractionEpoch ub : Nat) : List Slash :=
  slashList.filter
    (fun vs => unbondStart ≤ vs.epoch ∧ vs.epoch + ub < infractionEpoch)

/-- The slashing-adjusted total of a validator's unbond records at one
epoch, as accumulated by both passes of `process_slashes` (records starting
after the infraction epoch are skipped). -/
def unbondedFromRecords (s : PosState) (p : PosParams) (validator : Addr)
    (infractionEpoch epoch : Nat) : Nat :=
  ((s.unbondRecords validator epoch).map
    (fun u =>
      if infractionEpoch < u.start then 0
      else
        (getSlashedAmount p u.amount
          (prevSlashesFor (s.slashesOf validator) u.start infractionEpoch
            p.unbondingLen)).toNat)).sum

/-- Per-enqueued-slash work of `process_slashes` (`lib.rs` 3263-3394): push
the finalized slash, accumulate the slashed-adjusted unbonds from the epoch
after the infraction through the epoch before processing (pass A), then per
pipeline offset continue accumulating and emit the per-offset delta
`last_slash − this_slash`. -/
def processEnqueuedSlash (p : PosParams) (currentEpoch infractionEpoch : Nat)
    (validator : Addr) (stakeAtInfraction : Nat)
    (acc : PosState × List (Nat × Int)) (enq : Slash) :
    PosState × List (Nat × Int) :=
  let st := acc.1
  let st1 := { st with
    slashesOf := updA st.slashesOf validator (st.slashesOf validator ++ [enq]) }
  let totalUnbonded0 :=
    ((epochsInclusive (infractionEpoch + 1) (currentEpoch - 1)).map
      (fun e => unbondedFromRecords st1 p validator infractionEpoch e)).sum
  let passB := (List.range p.pipelineLen).foldl
    (fun (b : Nat × Int × List (Nat × Int)) offset =>
      let tu := b.1 + unbondedFromRecords st1 p validator infractionEpoch
        (currentEpoch + offset)
      let thisSlash : Int :=
        (decimalMultAmount enq.rate (stakeAtInfraction - tu) : Int)
      let diff := b.2.1 - thisSlash
      (tu, thisSlash, b.2.2 ++ [(offset, diff)]))
    (totalUnbonded0, 0, [])
  (st1, acc.2 ++ passB.2.2)

/-- One delta application of the update phase of `process_slashes`
(`lib.rs` 3399-3471): clamp the delta so the stake at the offset does not go
negative and the accumulated slash does not exceed the stake at the
infraction epoch, then update the validator and total deltas. -/
def applySlashDelta (currentEpoch infractionEpoch : Nat) (validator : Addr)
    (b : PosState × Int) (od : Nat × Int) : PosState × Int :=
  let st := b.1
  let totalSlashedVal := b.2
  let offset := od.1
  let delta := od.2
  let stakeAtOffset : Int :=
    (((readValidatorStakeOpt st validator (currentEpoch + offset)).getD 0 :
      Nat) : Int)
  let stakeAtInfraction : Int :=
    (((readValidatorStakeOpt st validator infractionEpoch).getD 0 : Nat) : Int)
  let change0 : Int := if stakeAtOffset + delta < 0 then -stakeAtOffset else delta
  let cv : Int × Int :=
    if stakeAtInfraction < totalSlashedVal - change0 then
      (totalSlashedVal - stakeAtInfraction, stakeAtInfraction)
    else (change0, totalSlashedVal - change0)
  let st1 := updateValidatorDeltas st validator cv.1 currentEpoch offset
  (updateTotalDeltas st1 cv.1 currentEpoch offset, cv.2)

/-- Embedding of `process_slashes` (`lib.rs` 3180-3485): no-op before epoch
`unbonding_len + 1` or when nothing is enqueued; otherwise compute the cubic
rate, finalize each enqueued slash with rate
`min(1, max(base_rate, cubic))`, append it to the validator's slash list,
compute the per-offset deltas, apply them with clamping, and transfer the
total slashed from the PoS account to the slash pool. -/
def processSlashes (s : PosState) (p : PosParams) (currentEpoch : Nat) :
    Except PosErr PosState := do
  if currentEpoch < p.unbondingLen + 1 then
    return s
  let infractionEpoch := currentEpoch - p.unbondingLen - 1
  let enqueued := s.enqueuedSlashes currentEpoch
  if enqueued.isEmpty then
    return s
  let cubicSlashRate := computeCubicSlashRate s p infractionEpoch
  let validatorsAndSlashes : List (Addr × List Slash) :=
    enqueued.map (fun q => (q.1, q.2.map (fun es =>
      ⟨es.epoch, es.blockHeight, es.stype,
        qMin 1 (qMax (es.stype.getSlashRate p) cubicSlashRate)⟩)))
  let phase1 := validatorsAndSlashes.foldl
    (fun (acc : PosState × List (Addr × List (Nat × Int))) vq =>
      let validator := vq.1
      let stakeAtInfraction :=
        (readValidatorStakeOpt acc.1 validator infractionEpoch).getD 0
      let r := vq.2.foldl
        (processEnqueuedSlash p currentEpoch infractionEpoch validator
          stakeAtInfraction)
        (acc.1, [])
      (r.1, acc.2 ++ [(validator, r.2)]))
    (s, [])
  let phase2 := phase1.2.foldl
    (fun (acc : PosState × Int) vq =>
      let r := vq.2.foldl
        (applySlashDelta currentEpoch infractionEpoch vq.1) (acc.1, 0)
      (r.1, acc.2 + r.2))
    (phase1.1, 0)
  let s2 ← transferTokens phase2.1 phase2.2.toNat Addr.pos Addr.slashPool
  return s2

/-- Embedding of `unjail_validator` (`lib.rs` 3488-3551).  Note that the
check loop of the source iterates `pipeline_len + 1` epochs but reads the
validator's state at `current_epoch` in every iteration. -/
def unjailValidator (s : PosState) (p : PosParams) (validator : Addr)
    (currentEpoch : Nat) : Except PosErr PosState := do
  let _ ← (epochsRange currentEpoch (p.pipelineLen + 1)).foldlM
    (fun (_ : Unit) epoch =>
      match validatorStateAt s validator currentEpoch with
      | some st =>
        if st ≠ ValidatorState.jailed then
          throw (PosErr.notJailed validator epoch)
        else pure ()
      | none => throw PosErr.notAValidator)
    ()
  let lastSlash := (s.lastSlashEpoch validator).getD 0
  let eligibleEpoch := lastSlash + p.unbondingLen
  if currentEpoch < eligibleEpoch then
    throw PosErr.notEligible
  let pipelineEpoch := currentEpoch + p.pipelineLen
  let stake := (readValidatorStakeOpt s validator pipelineEpoch).getD 0
  insertValidatorIntoValidatorSet s p validator stake currentEpoch
    p.pipelineLen

/-- Modelled from the spec: the epoch-transition driver (§4.8); the
finalize-block dispatch lives in the `apps` crate outside `src/`.  On an
advance to `new_epoch`: process the enqueued slashes, then copy the
validator sets and positions into the new pipeline epoch (the test helper
`advance_epoch` of `tests.rs` performs the same copy). -/
def advanceEpoch (s : PosState) (p : PosParams) (newEpoch : Nat) :
    Except PosErr PosState := do
  let s1 ← processSlashes s p newEpoch
  return copyValidatorSetsAndPositions s1 (newEpoch + p.pipelineLen)

/-- The empty storage state. -/
def emptyState : PosState where
  consensusSet := fun _ => []
  belowCapSet := fun _ => []
  positions := fun _ => []
  states := fun _ => []
  deltas := fun _ => []
  totalDeltas := []
  bonds := fun _ _ => []
  unbonds := fun _ _ => []
  unbondRecords := fun _ _ => []
  slashesOf := fun _ => []
  enqueuedSlashes := fun _ => []
  lastSlashEpoch := fun _ => none
  balanceOf := fun _ => none
  validatorAddrs := fun _ => []
  consensusKeys := []

/-- The error of an `Except` result, when it is one. -/
def exceptErr : Except PosErr α → Option PosErr
  | .error e => some e
  | .ok _ => none

/-- The state of an `Except` result, defaulting to the empty state. -/
def exceptState : Except PosErr PosState → PosState
  | .ok s => s
  | .error _ => emptyState

/-! ### Concrete scenarios

The parameter sets and operation sequences of the spec's §8 scenarios,
executed on the embedding. -/

/-- The parameters of scenarios S1/S2/S4: `pipeline_len 2`,
`unbonding_len 4`, `K = 3`, cubic window 1, duplicate-vote base rate 5%. -/
def stdParams : PosParams := ⟨2, 4, 3, 1, mkRat 1 20, mkRat 1 20⟩

/-- Scenario for the frozen/jailed error claims: genesis with validators
`user 1` (stake 1000) and `user 2` (stake 500), then evidence against
`user 1` at epoch 0 discovered at epoch 0. -/
def frozenRun : Except PosErr PosState := do
  let s0 ← initGenesis emptyState stdParams
    [⟨.user 1, 1000, 1⟩, ⟨.user 2, 500, 2⟩] 0
  slash s0 stdParams 0 0 1 .duplicateVote (.user 1)

/-- The state of `frozenRun`. -/
def sFrozen : PosState := exceptState frozenRun

/-- Scenario for the unjail claim: a single genesis validator, epochs
advanced to 5, then evidence from the distant past (infraction epoch 0)
arriving at epoch 5, so that the unjail eligibility epoch `0 + 4` is
already passed while the validator is only `Jailed` from epoch 6 on. -/
def lateEvidenceRun : Except PosErr PosState := do
  let s0 ← initGenesis emptyState stdParams [⟨.user 1, 100, 1⟩] 0
  let s1 ← advanceEpoch s0 stdParams 1
  let s2 ← advanceEpoch s1 stdParams 2
  let s3 ← advanceEpoch s2 stdParams 3
  let s4 ← advanceEpoch s3 stdParams 4
  let s5 ← advanceEpoch s4 stdParams 5
  slash s5 stdParams 5 0 1 .duplicateVote (.user 1)

/-- The state of `lateEvidenceRun`. -/
def sLateEvidence : PosState := exceptState lateEvidenceRun

/-- Parameters with a single consensus slot, for the validator-set
invariant counterexample. -/
def oneSlotParams : PosParams := ⟨2, 4, 1, 1, mkRat 1 20, mkRat 1 20⟩

/-- Genesis with one consensus (`user 1`, stake 100) and one below-capacity
(`user 2`, stake 50) validator under `K = 1`, then evidence against
`user 1` at epoch 0. -/
def oneSlotRun : Except PosErr PosState := do
  let s0 ← initGenesis emptyState oneSlotParams
    [⟨.user 1, 100, 1⟩, ⟨.user 2, 50, 2⟩] 0
  slash s0 oneSlotParams 0 0 1 .duplicateVote (.user 1)

/-- The state of `oneSlotRun`. -/
def sOneSlot : PosState := exceptState oneSlotRun

/-- Scenario S2, first part: genesis `V1=100, V2=200, V3=300` with `K = 3`,
then `become_validator(V4)` at epoch 0. -/
def s2BecomeRun : Except PosErr PosState := do
  let s0 ← initGenesis emptyState stdParams
    [⟨.user 1, 100, 1⟩, ⟨.user 2, 200, 2⟩, ⟨.user 3, 300, 3⟩] 0
  becomeValidator s0 stdParams (.user 4) 4 0

/-- The state of scenario S2 before the bond. -/
def sBeforeBond : PosState := exceptState s2BecomeRun

/-- Scenario S2, second part: `bond(None→V4, 150)` at epoch 0. -/
def s2BondRun : Except PosErr PosState :=
  bondTokens sBeforeBond stdParams none (.user 4) 150 0

/-- The state of scenario S2 after the bond. -/
def sAfterBond : PosState := exceptState s2BondRun

/-- The parameters of scenario S3 as fixed by the claims:
`pipeline_len 2` and, so that the expected withdraw epoch
`3 + pipeline + unbonding = 7` is consistent, `unbonding_len 2`. -/
def s3Params : PosParams := ⟨2, 2, 3, 1, mkRat 1 20, mkRat 1 20⟩

/-- Scenario S3 up to just before the unbond: delegator `user 10` holds 500
tokens, genesis `V1 = user 1` with stake 1000, `bond(D→V1, 500)` at epoch 1,
epochs advanced to 3. -/
def s3PreUnbondRun : Except PosErr PosState := do
  let s0 ← initGenesis
    { emptyState with
      balanceOf := updA emptyState.balanceOf (.user 10) (some 500) }
    s3Params [⟨.user 1, 1000, 1⟩] 0
  let s1 ← advanceEpoch s0 s3Params 1
  let s2 ← bondTokens s1 s3Params (some (.user 10)) (.user 1) 500 1
  let s3 ← advanceEpoch s2 s3Params 2
  advanceEpoch s3 s3Params 3

/-- The state of scenario S3 before the unbond. -/
def sPreUnbond : PosState := exceptState s3PreUnbondRun

/-- Scenario S3 unbond: `unbond(D→V1, 200)` at epoch 3. -/
def s3UnbondRun : Except PosErr PosState :=
  unbondTokens sPreUnbond s3Params (some (.user 10)) (.user 1) 200 3

/-- The state of scenario S3 after the unbond. -/
def sAfterUnbond : PosState := exceptState s3UnbondRun

/-- Scenario S3 advanced to epoch 7 (the withdraw epoch). -/
def s3PreWithdrawRun : Except PosErr PosState := do
  let s5 ← s3UnbondRun
  let s6 ← advanceEpoch s5 s3Params 4
  let s7 ← advanceEpoch s6 s3Params 5
  let s8 ← advanceEpoch s7 s3Params 6
  advanceEpoch s8 s3Params 7

/-- The state of scenario S3 at epoch 7. -/
def sPreWithdraw : PosState := exceptState s3PreWithdrawRun

/-- Scenario S3 withdraw: `withdraw(D→V1)` at epoch 7. -/
def s3WithdrawRun : Except PosErr (PosState × Nat) :=
  withdrawTokens sPreWithdraw s3Params (some (.user 10)) (.user 1) 7

/-- The state of scenario S3 after the withdraw. -/
def sAfterWithdraw : PosState :=
  match s3WithdrawRun with
  | .ok r => r.1
  | .error _ => emptyState

/-- Scenario S4 up to just before the processing epoch: genesis `V1` with
stake 1000, epochs advanced to 5, evidence for infraction epoch 4 at epoch
5, epochs advanced to 8. -/
def s4PreProcessRun : Except PosErr PosState := do
  let s0 ← initGenesis emptyState stdParams [⟨.user 1, 1000, 1⟩] 0
  let s1 ← advanceEpoch s0 stdParams 1
  let s2 ← advanceEpoch s1 stdParams 2
  let s3 ← advanceEpoch s2 stdParams 3
  let s4 ← advanceEpoch s3 stdParams 4
  let s5 ← advanceEpoch s4 stdParams 5
  let s6 ← slash s5 stdParams 5 4 1 .duplicateVote (.user 1)
  let s7 ← advanceEpoch s6 stdParams 6
  let s8 ← advanceEpoch s7 stdParams 7
  advanceEpoch s8 stdParams 8

/-- The state of scenario S4 before the epoch-9 slash processing. -/
def sS4Pre : PosState := exceptState s4PreProcessRun

/-- Scenario S4 slash processing at epoch 9. -/
def s4ProcessRun : Except PosErr PosState :=
  processSlashes sS4Pre stdParams 9

/-- The state of scenario S4 after processing. -/
def sS4 : PosState := exceptState s4ProcessRun

/-- The state of just the genesis part of `oneSlotRun`. -/
def sOneSlotPre : PosState :=
  exceptState (initGenesis emptyState oneSlotParams
    [⟨.user 1, 100, 1⟩, ⟨.user 2, 50, 2⟩] 0)

/-- The validator-set invariant of the claim: the consensus set holds at
most `max_validator_slots` members, and a non-empty below-capacity set
forces a full consensus set. -/
def validatorSetsInvariant (p : PosParams) (cons bc : List SetEntry) : Prop :=
  cons.length ≤ p.maxValidatorSlots ∧
    (bc ≠ [] → cons.length = p.maxValidatorSlots)

/-! ### Helper lemmas -/

theorem expectO_error {o : Option α} {e : PosErr} (h : expectO o = .error e) :
    e = .aborted := by
  cases o with
  | none => cases h; rfl
  | some x => cases h

theorem updateValidatorSet_error (s : PosState) (p : PosParams) (v : Addr)
    (c : Int) (e : Nat) (err : PosErr)
    (h : updateValidatorSet s p v c e = .error err) : err = .aborted := by
  unfold updateValidatorSet at h
  simp only [bind, Except.bind, pure, Except.pure] at h
  repeat' split at h
  all_goals (try cases h)
  all_goals (rename_i heq; exact expectO_error heq)

/-- A successful `update_validator_set` only changes the validator sets, the
position index and the validator states. -/
theorem updateValidatorSet_frame (s : PosState) (p : PosParams) (v : Addr)
    (c : Int) (e : Nat) (s' : PosState)
    (h : updateValidatorSet s p v c e = .ok s') :
    s'.unbonds = s.unbonds ∧ s'.balanceOf = s.balanceOf ∧
    s'.slashesOf = s.slashesOf ∧ s'.bonds = s.bonds ∧
    s'.deltas = s.deltas ∧ s'.totalDeltas = s.totalDeltas ∧
    s'.unbondRecords = s.unbondRecords ∧
    s'.lastSlashEpoch = s.lastSlashEpoch := by
  unfold updateValidatorSet at h
  simp only [bind, Except.bind, pure, Except.pure] at h
  repeat' split at h
  all_goals (cases h)
  all_goals exact ⟨rfl, rfl, rfl, rfl, rfl, rfl, rfl, rfl⟩

/-- When the early unbond guards pass, `unbond_tokens` fails with the
`ValidatorFrozen` error exactly when the validator is frozen. -/
theorem unbond_frozen_char (s : PosState) (p : PosParams) (source : Option Addr)
    (validator : Addr) (amount e : Nat)
    (hsrc : ∀ a, source = some a → a = validator ∨
      isValidator s a (e + p.pipelineLen) = false)
    (hval : isValidator s validator (e + p.pipelineLen) = true) :
    unbondTokens s p source validator amount e = .error .validatorFrozen ↔
      isValidatorFrozen s validator e p = true := by
  unfold unbondTokens
  simp only [bind, Except.bind, pure, Except.pure, throw, throwThe,
    MonadExceptOf.throw]
  by_cases hf : isValidatorFrozen s validator e p = true
  · simp only [hf, iff_true]
    cases source with
    | none => simp [hval, hf]
    | some a =>
      rcases hsrc a rfl with h | h
      · simp [h, hval, hf]
      · simp [h, hval, hf]
  · have hf2 : isValidatorFrozen s validator e p = false := by
      cases hveq : isValidatorFrozen s validator e p
      · rfl
      · exact absurd hveq hf
    rw [hf2]
    constructor
    · intro hcontra
      exfalso
      cases source with
      | none =>
        simp only [hval, hf2] at hcontra
        simp only [not_true_eq_false, if_false, Bool.false_eq_true] at hcontra
        repeat' split at hcontra
        all_goals (first
          | exact PosErr.noConfusion (Except.error.inj hcontra)
          | exact Except.noConfusion hcontra
          | (rename_i heq
             have h2 := updateValidatorSet_error _ _ _ _ _ _ heq
             subst h2
             exact PosErr.noConfusion (Except.error.inj hcontra)))
      | some a =>
        rcases hsrc a rfl with h | h
        all_goals (
          simp only [h, hval, hf2] at hcontra
          simp only [not_true_eq_false, if_false, Bool.false_eq_true,
            ne_eq, false_and, and_false] at hcontra
          repeat' split at hcontra
          all_goals (first
            | exact PosErr.noConfusion (Except.error.inj hcontra)
            | exact Except.noConfusion hcontra
            | (rename_i heq
               have h2 := updateValidatorSet_error _ _ _ _ _ _ heq
               subst h2
               exact PosErr.noConfusion (Except.error.inj hcontra))))
    · intro hx
      exact Bool.noConfusion hx

/-! ### Claim theorems -/

/-- C1: for every input amount and list of applicable slashes, the iterative
slashed-amount helper `get_slashed_amount` agrees with the spec's
pseudocode — dropping a computed entry exactly when its
`epoch + unbonding_len` is strictly below the current slash's epoch
(subtracting its slashed amount from the running amount, saturating at 0),
pushing `{epoch, rate · updated}`, and returning the running amount minus
the sum of the remaining computed entries, saturating at 0 — and for amount
1000 with slashes at epochs 4 and 6 at rate 0.05 under
`unbonding_len = 4` it returns 900. -/
theorem claim_C1 :
    (∀ (p : PosParams) (amount : Nat) (slashes : List Slash),
      getSlashedAmount p amount slashes = slashedAmountSpec p amount slashes) ∧
    getSlashedAmount stdParams 1000
      [⟨4, 1, .duplicateVote, mkRat 1 20⟩, ⟨6, 1, .duplicateVote, mkRat 1 20⟩]
      = 900 :=
  ⟨getSlashedAmount_eq_spec, by decide⟩

/-- C2 counterexample: in a reachable state (genesis under `K = 1` with one
consensus and one below-capacity validator, sets copied through the
lookahead window), `slash` succeeds but leaves, at the intermediate epoch 1
of the window, an empty consensus set next to a non-empty below-capacity
set — because `slash` promotes a replacement only at the pipeline epoch.
The invariant held at epoch 1 before the slash, so the claim that every
operation preserves it is false as stated. -/
theorem claim_C2_counterexample :
    ((sOneSlotPre.consensusSet 1).length = oneSlotParams.maxValidatorSlots ∧
      sOneSlotPre.belowCapSet 1 ≠ []) ∧
    oneSlotRun = .ok sOneSlot ∧
    sOneSlot.belowCapSet 1 ≠ [] ∧
    (sOneSlot.consensusSet 1).length ≠ oneSlotParams.maxValidatorSlots :=
  ⟨by decide, rfl, by decide, by decide⟩

/-- C5: the claim (and the source's own comment, "Check that the validator
is jailed up to the pipeline epoch") requires unjailing to succeed when the
validator is `Jailed` at the pipeline epoch and the eligibility epoch has
passed; but the check loop of `unjail_validator` reads the state at
`current_epoch` instead of the loop epoch.  At the concrete state reached
by late evidence (infraction epoch 0 discovered at epoch 5), the validator
is `Jailed` at the pipeline epoch 7 and eligible
(`5 ≥ last_slash_epoch + unbonding_len = 4`), yet the call returns
`NotJailed`. -/
theorem claim_C5_eval :
    validatorStateAt sLateEvidence (.user 1) (5 + stdParams.pipelineLen) =
      some .jailed ∧
    (sLateEvidence.lastSlashEpoch (.user 1)).getD 0 + stdParams.unbondingLen
      ≤ 5 ∧
    exceptErr (unjailValidator sLateEvidence stdParams (.user 1) 5) =
      some (.notJailed (.user 1) 5) := by decide

/-- C6 counterexample: in a reachable state where `user 1` is frozen
(slashed at epoch 0, `0 < 0 + 4 + 1`), an unbond whose source is the other
validator `user 2` fails with `SourceMustNotBeAValidator`, not with the
`ValidatorFrozen` error — so "fails with the ValidatorFrozen error exactly
when the predicate is true" is false as stated. -/
theorem claim_C6_counterexample :
    isValidatorFrozen sFrozen (.user 1) 0 stdParams = true ∧
    exceptErr (unbondTokens sFrozen stdParams (some (.user 2)) (.user 1) 10 0)
      = some .sourceMustNotBeAValidator ∧
    exceptErr (unbondTokens sFrozen stdParams (some (.user 2)) (.user 1) 10 0)
      ≠ some .validatorFrozen := by decide

/-- C8 counterexample: a bond to a validator that is `Jailed` at the
pipeline epoch does not always succeed — with a source that is itself a
different validator the call is rejected with `SourceMustNotBeAValidator`. -/
theorem claim_C8_counterexample :
    validatorStateAt sFrozen (.user 1) (0 + stdParams.pipelineLen) =
      some .jailed ∧
    exceptErr (bondTokens sFrozen stdParams (some (.user 2)) (.user 1) 10 0)
      = some .sourceMustNotBeAValidator := by decide

/-- C10: `transfer_tokens` never fails for balance reasons — it returns
`Ok` on every input; with an existing but insufficient source balance it
still returns `Ok`, zeroing the source (saturating spend) and crediting the
full amount to the destination; with no source balance entry it returns
`Ok` leaving the state unchanged; and consequently `bond_tokens` succeeds
in scenario S2 for `V4`, which has no balance entry, leaving the PoS
account balance unchanged (600 from genesis) while recording a 150-token
bond. -/
theorem claim_C10 :
    (∀ (s : PosState) (amount : Nat) (src dest : Addr),
      ∃ s', transferTokens s amount src dest = .ok s') ∧
    (∀ (s : PosState) (amount : Nat) (src dest : Addr) (srcBal : Nat),
      s.balanceOf src = some srcBal → srcBal < amount → src ≠ dest →
      ∃ s', transferTokens s amount src dest = .ok s' ∧
        s'.balanceOf src = some 0 ∧
        s'.balanceOf dest = some ((s.balanceOf dest).getD 0 + amount)) ∧
    (∀ (s : PosState) (amount : Nat) (src dest : Addr),
      s.balanceOf src = none → transferTokens s amount src dest = .ok s) ∧
    (s2BondRun = .ok sAfterBond ∧
      sAfterBond.balanceOf .pos = sBeforeBond.balanceOf .pos ∧
      sBeforeBond.balanceOf .pos = some 600 ∧
      sBeforeBond.balanceOf (.user 4) = none ∧
      deltaVal (sAfterBond.bonds (.user 4) (.user 4)) 2 = some 150) := by
  refine ⟨?_, ?_, ?_, rfl, by decide, by decide, by decide, by decide⟩
  · intro s amount src dest
    unfold transferTokens
    cases h : s.balanceOf src with
    | some b => exact ⟨_, rfl⟩
    | none => exact ⟨_, rfl⟩
  · intro s amount src dest srcBal h1 h2 hne
    unfold transferTokens
    rw [h1]
    refine ⟨_, rfl, ?_, ?_⟩
    · simp only [updA, if_neg hne]
      simp [Nat.sub_eq_zero_of_le h2.le]
    · simp [updA]
  · intro s amount src dest h
    unfold transferTokens
    rw [h]

theorem deltaVal_epochedWrite (l : List (Nat × Int)) (e : Nat) (v : Int) :
    deltaVal (epochedWrite l e v) e = some v := by
  unfold deltaVal epochedWrite
  induction l with
  | nil => simp
  | cons q rest ih =>
    by_cases h : q.1 = e
    · have hb : (q.1 == e) = true := by simpa using h
      simp only [List.filter_cons, hb, Bool.not_true, if_false]
      exact ih
    · have hb : (q.1 == e) = false := by simpa using h
      simp only [List.filter_cons, hb, Bool.not_false, if_true,
        List.cons_append, List.find?, hb]
      exact ih

theorem listMin?_mem {l : List Nat} {m : Nat} (h : listMin? l = some m) :
    m ∈ l := by
  induction l generalizing m with
  | nil => cases h
  | cons x xs ih =>
    unfold listMin? at h
    cases hx : listMin? xs with
    | none => rw [hx] at h; cases h; exact List.mem_cons_self _ _
    | some m2 =>
      rw [hx] at h
      cases h
      rcases min_choice x m2 with h2 | h2
      · rw [h2]; exact List.mem_cons_self _ _
      · rw [h2]; exact List.mem_cons_of_mem _ (ih hx)

theorem listMax?_mem {l : List Nat} {m : Nat} (h : listMax? l = some m) :
    m ∈ l := by
  induction l generalizing m with
  | nil => cases h
  | cons x xs ih =>
    unfold listMax? at h
    cases hx : listMax? xs with
    | none => rw [hx] at h; cases h; exact List.mem_cons_self _ _
    | some m2 =>
      rw [hx] at h
      cases h
      rcases max_choice x m2 with h2 | h2
      · rw [h2]; exact List.mem_cons_self _ _
      · rw [h2]; exact List.mem_cons_of_mem _ (ih hx)

theorem listMin?_isSome {l : List Nat} (h : l ≠ []) :
    ∃ m, listMin? l = some m := by
  cases l with
  | nil => exact absurd rfl h
  | cons x xs =>
    unfold listMin?
    cases listMin? xs with
    | none => exact ⟨x, rfl⟩
    | some m2 => exact ⟨min x m2, rfl⟩

theorem listMax?_isSome {l : List Nat} (h : l ≠ []) :
    ∃ m, listMax? l = some m := by
  cases l with
  | nil => exact absurd rfl h
  | cons x xs =>
    unfold listMax?
    cases listMax? xs with
    | none => exact ⟨x, rfl⟩
    | some m2 => exact ⟨max x m2, rfl⟩

/-- In a non-empty validator set, the minimum-stake bucket has a last
position holding some address. -/
theorem exists_last_min (l : List SetEntry) (h : l ≠ []) :
    ∃ m d, findLastPositionIn l (getMinConsensusAmount l) = some m ∧
      setLookup l (getMinConsensusAmount l) m = some d := by
  have hmap : l.map SetEntry.stake ≠ [] :=
    fun h2 => h (List.map_eq_nil_iff.mp h2)
  obtain ⟨mu, hmu⟩ := listMin?_isSome hmap
  have hmin : getMinConsensusAmount l = mu := by
    simp [getMinConsensusAmount, hmu]
  obtain ⟨en, hen, hstake⟩ := List.mem_map.mp (listMin?_mem hmu)
  have hbucket : en ∈ bucketOf l mu := by
    simp [bucketOf, List.mem_filter, hen, hstake]
  have hposmap : (bucketOf l mu).map SetEntry.pos ≠ [] := by
    intro h2
    rw [List.map_eq_nil_iff] at h2
    rw [h2] at hbucket
    cases hbucket
  obtain ⟨m, hm⟩ := listMax?_isSome hposmap
  obtain ⟨en2, hen2, hpos2⟩ := List.mem_map.mp (listMax?_mem hm)
  have hen2l : en2 ∈ l := List.mem_filter.mp hen2 |>.1
  have hen2s : en2.stake = mu := by
    have := List.mem_filter.mp hen2 |>.2
    simpa using this
  have hfind : ((l.find? (fun en => en.stake == mu && en.pos == m)).isSome) := by
    rw [List.find?_isSome]
    exact ⟨en2, hen2l, by simp [hen2s, hpos2]⟩
  obtain ⟨en3, hen3⟩ := Option.isSome_iff_exists.mp hfind
  refine ⟨m, en3.addr, ?_, ?_⟩
  · rw [hmin]
    exact hm
  · rw [hmin]
    simp [setLookup, hen3]

/-- An accumulator reached by the `epochedLatest` fold holds an epoch
`≤ e`. -/
theorem epochedLatest_acc_le {e : Nat} (l : List (Nat × α))
    (acc : Option (Nat × α)) (hacc : ∀ r, acc = some r → r.1 ≤ e) :
    ∀ r, l.foldl
      (fun acc q =>
        if q.1 ≤ e then
          match acc with
          | none => some q
          | some r => if r.1 ≤ q.1 then some q else some r
        else acc)
      acc = some r → r.1 ≤ e := by
  induction l generalizing acc with
  | nil => exact hacc
  | cons q rest ih =>
    intro r hr
    refine ih _ ?_ r hr
    intro r2 hr2
    by_cases hq : q.1 ≤ e
    · simp only [hq, if_true] at hr2
      cases hacc2 : acc with
      | none => rw [hacc2] at hr2; cases hr2; exact hq
      | some r3 =>
        rw [hacc2] at hr2
        by_cases h3 : r3.1 ≤ q.1
        · simp only [h3, if_true] at hr2; cases hr2; exact hq
        · simp only [h3, if_false] at hr2; cases hr2; exact hacc _ hacc2
    · simp only [hq, if_false] at hr2
      exact hacc r2 hr2

/-- Reading an epoched value at the exact epoch of a fresh write returns
the written value. -/
theorem epochedGet_write_self (l : List (Nat × α)) (e : Nat) (x : α) :
    epochedGet (epochedWrite l e x) e = some x := by
  unfold epochedGet epochedLatest epochedWrite
  rw [List.foldl_append]
  have hacc := epochedLatest_acc_le (e := e)
    (l.filter (fun q => !(q.1 == e))) (none : Option (Nat × α))
    (fun r hr => by cases hr)
  cases hfold : (l.filter (fun q => !(q.1 == e))).foldl
      (fun acc q =>
        if q.1 ≤ e then
          match acc with
          | none => some q
          | some r => if r.1 ≤ q.1 then some q else some r
        else acc)
      none with
  | none => simp
  | some r =>
    have hr := hacc r hfold
    simp [hr]

/-- C6 (amended): `is_frozen(val, e_c)` holds exactly when a last-slash
epoch is recorded with `last + unbonding_len + 1 > e_c` (false with no
recorded slash); and — provided the source is not some other validator and
the target is a validator at the pipeline epoch, the checks performed
before the frozen check — `unbond` fails with the `ValidatorFrozen` error
exactly when this predicate is true. -/
theorem claim_C6 :
    (∀ (s : PosState) (v : Addr) (e : Nat) (p : PosParams),
      isValidatorFrozen s v e p = true ↔
        ∃ last, s.lastSlashEpoch v = some last ∧
          e < last + p.unbondingLen + 1) ∧
    (∀ (s : PosState) (p : PosParams) (source : Option Addr) (validator : Addr)
        (amount e : Nat),
      (∀ a, source = some a → a = validator ∨
        isValidator s a (e + p.pipelineLen) = false) →
      isValidator s validator (e + p.pipelineLen) = true →
      (unbondTokens s p source validator amount e = .error .validatorFrozen ↔
        isValidatorFrozen s validator e p = true)) := by
  constructor
  · intro s v e p
    cases h : s.lastSlashEpoch v with
    | none => simp [isValidatorFrozen, h]
    | some last => simp [isValidatorFrozen, h]
  · intro s p source validator amount e hsrc hval
    exact unbond_frozen_char s p source validator amount e hsrc hval

/-- C6 witness: in the frozen scenario state a self-targeted unbond from
the frozen validator is rejected with exactly the `ValidatorFrozen`
error. -/
theorem claim_C6_witness :
    unbondTokens sFrozen stdParams none (.user 1) 10 0 =
      .error .validatorFrozen :=
  (claim_C6.2 sFrozen stdParams none (.user 1) 10 0
    (fun _ h => Option.noConfusion h) (by decide)).mpr (by decide)

/-- C3: in the stake-change protocol, a below-capacity validator whose new
stake strictly exceeds the minimum consensus stake at the pipeline epoch is
swapped into the consensus set while the last-positioned minimum-stake
consensus validator is demoted to below-capacity; with equal stake the
incumbent consensus set is left unchanged and the validator re-enters
below-capacity.  Concretely (scenario S2, `K = 3`, genesis
`V1=100, V2=200, V3=300`, `become_validator(V4)` then `bond(None→V4, 150)`
at epoch 0) the consensus set at the pipeline epoch is
`{V4(150), V2(200), V3(300)}` and `V1(100)` is below-capacity. -/
theorem claim_C3 :
    (∀ (s : PosState) (p : PosParams) (v : Addr) (tokenChange : Int)
      (e pos : Nat) (pre post minC : Nat),
      pre = (readValidatorStakeOpt s v (e + p.pipelineLen)).getD 0 →
      post = ((pre : Int) + tokenChange).toNat →
      minC = getMinConsensusAmount (s.consensusSet (e + p.pipelineLen)) →
      tokenChange ≠ 0 →
      getPosition s (e + p.pipelineLen) v = some pos →
      checkInConsensus (s.consensusSet (e + p.pipelineLen)) v pre pos = false →
      s.consensusSet (e + p.pipelineLen) ≠ [] →
      ((minC < post →
        ∃ m d s',
          findLastPositionIn (s.consensusSet (e + p.pipelineLen)) minC = some m ∧
          setLookup (s.consensusSet (e + p.pipelineLen)) minC m = some d ∧
          updateValidatorSet s p v tokenChange e = .ok s' ∧
          s'.consensusSet (e + p.pipelineLen) =
            setRemoveEntry (s.consensusSet (e + p.pipelineLen)) minC m ++
              [⟨post, findNextPositionIn
                (setRemoveEntry (s.consensusSet (e + p.pipelineLen)) minC m)
                post, v⟩] ∧
          s'.belowCapSet (e + p.pipelineLen) =
            setRemoveEntry (s.belowCapSet (e + p.pipelineLen)) pre pos ++
              [⟨minC, findNextPositionIn
                (setRemoveEntry (s.belowCapSet (e + p.pipelineLen)) pre pos)
                minC, d⟩] ∧
          validatorStateAt s' v (e + p.pipelineLen) = some .consensus ∧
          (d ≠ v → validatorStateAt s' d (e + p.pipelineLen) =
            some .belowCapacity)) ∧
      (post = minC →
        ∃ s',
          updateValidatorSet s p v tokenChange e = .ok s' ∧
          s'.consensusSet = s.consensusSet ∧
          s'.belowCapSet (e + p.pipelineLen) =
            setRemoveEntry (s.belowCapSet (e + p.pipelineLen)) pre pos ++
              [⟨post, findNextPositionIn
                (setRemoveEntry (s.belowCapSet (e + p.pipelineLen)) pre pos)
                post, v⟩] ∧
          validatorStateAt s' v (e + p.pipelineLen) = some .belowCapacity))) ∧
    (s2BondRun = .ok sAfterBond ∧
      sAfterBond.consensusSet 2 =
        [⟨200, 0, .user 2⟩, ⟨300, 0, .user 3⟩, ⟨150, 0, .user 4⟩] ∧
      sAfterBond.belowCapSet 2 = [⟨100, 0, .user 1⟩] ∧
      validatorStateAt sAfterBond (.user 4) 2 = some .consensus ∧
      validatorStateAt sAfterBond (.user 1) 2 = some .belowCapacity) := by
  constructor
  · intro s p v tokenChange e pos pre post minC hpre hpost hminC h0 hpos hcic hC
    subst hpre hpost hminC
    have hpos' : expectO (getPosition s (e + p.pipelineLen) v) = .ok pos := by
      rw [hpos]; rfl
    constructor
    · intro hgt
      obtain ⟨m, d, hm, hd⟩ :=
        exists_last_min (s.consensusSet (e + p.pipelineLen)) hC
      have hm' : expectO (findLastPositionIn (s.consensusSet (e + p.pipelineLen))
          (getMinConsensusAmount (s.consensusSet (e + p.pipelineLen)))) =
          .ok m := by
        rw [hm]; rfl
      have hd' : expectO (setLookup (s.consensusSet (e + p.pipelineLen))
          (getMinConsensusAmount (s.consensusSet (e + p.pipelineLen))) m) =
          .ok d := by
        rw [hd]; rfl
      refine ⟨m, d, ?_⟩
      unfold updateValidatorSet
      simp only [bind, Except.bind, pure, Except.pure, h0, if_false, hpos',
        hcic, Bool.false_eq_true, hgt, if_true, hm', hd']
      refine ⟨_, hm, hd, rfl, ?_, ?_, ?_, ?_⟩
      · simp only [insertValidatorIntoConsensus, insertValidatorIntoBelowCap,
          stateWrite, updN, updA, if_pos rfl, if_true]
      · simp only [insertValidatorIntoConsensus, insertValidatorIntoBelowCap,
          stateWrite, updN, updA, if_pos rfl, if_true]
      · simp only [validatorStateAt, insertValidatorIntoConsensus,
          insertValidatorIntoBelowCap, stateWrite, updN, updA, if_pos rfl]
        exact epochedGet_write_self _ _ _
      · intro hne
        simp only [validatorStateAt, insertValidatorIntoConsensus,
          insertValidatorIntoBelowCap, stateWrite, updN, updA, hne, if_false]
        exact epochedGet_write_self _ _ _
    · intro heq
      have hnlt : ¬ (getMinConsensusAmount (s.consensusSet (e + p.pipelineLen)) <
          ((((readValidatorStakeOpt s v (e + p.pipelineLen)).getD 0 : Nat) : Int)
            + tokenChange).toNat) := by
        rw [heq]
        exact lt_irrefl _
      unfold updateValidatorSet
      simp only [bind, Except.bind, pure, Except.pure, h0, if_false, hpos',
        hcic, Bool.false_eq_true, hnlt]
      refine ⟨_, rfl, rfl, ?_, ?_⟩
      · simp only [insertValidatorIntoBelowCap, stateWrite, updN, updA,
          if_pos rfl, if_true]
      · simp only [validatorStateAt, insertValidatorIntoBelowCap, stateWrite,
          updN, updA, if_pos rfl]
        exact epochedGet_write_self _ _ _
  · exact ⟨rfl, by decide, by decide, by decide, by decide⟩

/-- C3 witness: the strict-swap case of the stake-change protocol applied
at the concrete scenario-S2 state, with pre-stake 0, post-stake 150 and
minimum consensus stake 100. -/
theorem claim_C3_witness :
    ∃ m d s',
      findLastPositionIn
        (sBeforeBond.consensusSet (0 + stdParams.pipelineLen)) 100 = some m ∧
      setLookup (sBeforeBond.consensusSet (0 + stdParams.pipelineLen)) 100 m =
        some d ∧
      updateValidatorSet sBeforeBond stdParams (.user 4) 150 0 = .ok s' ∧
      s'.consensusSet (0 + stdParams.pipelineLen) =
        setRemoveEntry (sBeforeBond.consensusSet (0 + stdParams.pipelineLen))
          100 m ++
          [⟨150, findNextPositionIn
            (setRemoveEntry
              (sBeforeBond.consensusSet (0 + stdParams.pipelineLen)) 100 m)
            150, .user 4⟩] ∧
      s'.belowCapSet (0 + stdParams.pipelineLen) =
        setRemoveEntry (sBeforeBond.belowCapSet (0 + stdParams.pipelineLen))
          0 0 ++
          [⟨100, findNextPositionIn
            (setRemoveEntry
              (sBeforeBond.belowCapSet (0 + stdParams.pipelineLen)) 0 0)
            100, d⟩] ∧
      validatorStateAt s' (.user 4) (0 + stdParams.pipelineLen) =
        some .consensus ∧
      (d ≠ .user 4 → validatorStateAt s' d (0 + stdParams.pipelineLen) =
        some .belowCapacity) :=
  (claim_C3.1 sBeforeBond stdParams (.user 4) 150 0 0 0 150 100
    (by decide) (by decide) (by decide) (by decide) (by decide) (by decide)
    (by decide)).1 (by decide)

/-- C8 (amended): a bond to a validator that is `Jailed` at the pipeline
epoch succeeds — provided the source is not some other validator and the
validator is nowhere `Inactive` in the pipeline range, the independent
checks of `bond_tokens` — and it increases the bond delta, the validator
delta and the total delta at the pipeline epoch by the amount while leaving
the consensus set, the below-capacity set and the position index of every
epoch unchanged. -/
theorem claim_C8 :
    ∀ (s : PosState) (p : PosParams) (source : Option Addr) (validator : Addr)
      (amount e : Nat),
      (∀ a, source = some a → a = validator ∨
        isValidator s a (e + p.pipelineLen) = false) →
      ((epochsRange e p.pipelineLen).any
        (fun ep => validatorStateAt s validator ep == some .inactive)) = false →
      validatorStateAt s validator (e + p.pipelineLen) = some .jailed →
      ∃ s', bondTokens s p source validator amount e = .ok s' ∧
        s'.consensusSet = s.consensusSet ∧
        s'.belowCapSet = s.belowCapSet ∧
        s'.positions = s.positions ∧
        deltaVal (s'.bonds (source.getD validator) validator)
            (e + p.pipelineLen) =
          some ((deltaVal (s.bonds (source.getD validator) validator)
            (e + p.pipelineLen)).getD 0 + (amount : Int)) ∧
        deltaVal (s'.deltas validator) (e + p.pipelineLen) =
          some ((deltaVal (s.deltas validator)
            (e + p.pipelineLen)).getD 0 + (amount : Int)) ∧
        deltaVal s'.totalDeltas (e + p.pipelineLen) =
          some ((deltaVal s.totalDeltas
            (e + p.pipelineLen)).getD 0 + (amount : Int)) := by
  intro s p source validator amount e hsrc hina hjail
  have hjail' : epochedGet (s.states validator) (e + p.pipelineLen) =
      some .jailed := hjail
  have hina' : ((epochsRange e p.pipelineLen).any
      (fun ep => epochedGet (s.states validator) ep == some .inactive)) =
      false := hina
  cases source with
  | none =>
    unfold bondTokens
    simp only [bind, Except.bind, pure, Except.pure, throw, throwThe,
      MonadExceptOf.throw, validatorStateAt, Option.getD_none]
    simp only [hjail', hina', Option.isNone_some, Bool.false_eq_true,
      if_false, beq_self_eq_true, if_true]
    simp only [transferTokens, updateValidatorDeltas, updateTotalDeltas]
    cases hb : s.balanceOf validator with
    | none =>
      simp only [hb]
      refine ⟨_, rfl, rfl, rfl, rfl, ?_, ?_, ?_⟩
      · simp only [updAA, if_pos (And.intro rfl rfl)]
        exact deltaVal_epochedWrite _ _ _
      · simp only [updA, if_pos rfl, updAA, if_pos (And.intro rfl rfl),
          if_true]
        exact deltaVal_epochedWrite _ _ _
      · exact deltaVal_epochedWrite _ _ _
    | some b =>
      simp only [hb]
      refine ⟨_, rfl, rfl, rfl, rfl, ?_, ?_, ?_⟩
      · simp only [updAA, if_pos (And.intro rfl rfl)]
        exact deltaVal_epochedWrite _ _ _
      · simp only [updA, if_pos rfl, updAA, if_pos (And.intro rfl rfl),
          if_true]
        exact deltaVal_epochedWrite _ _ _
      · exact deltaVal_epochedWrite _ _ _
  | some a =>
    rcases hsrc a rfl with h | h
    · subst h
      unfold bondTokens
      simp only [bind, Except.bind, pure, Except.pure, throw, throwThe,
        MonadExceptOf.throw, validatorStateAt, Option.getD_some, ne_eq,
        not_true_eq_false, false_and, if_false]
      simp only [hjail', hina', Option.isNone_some, Bool.false_eq_true,
        if_false, beq_self_eq_true, if_true]
      simp only [transferTokens, updateValidatorDeltas, updateTotalDeltas]
      cases hb : s.balanceOf a with
      | none =>
        simp only [hb]
        refine ⟨_, rfl, rfl, rfl, rfl, ?_, ?_, ?_⟩
        · simp only [updAA, if_pos (And.intro rfl rfl)]
          exact deltaVal_epochedWrite _ _ _
        · simp only [updA, if_pos rfl, updAA, if_pos (And.intro rfl rfl),
            if_true]
          exact deltaVal_epochedWrite _ _ _
        · exact deltaVal_epochedWrite _ _ _
      | some b =>
        simp only [hb]
        refine ⟨_, rfl, rfl, rfl, rfl, ?_, ?_, ?_⟩
        · simp only [updAA, if_pos (And.intro rfl rfl)]
          exact deltaVal_epochedWrite _ _ _
        · simp only [updA, if_pos rfl, updAA, if_pos (And.intro rfl rfl),
            if_true]
          exact deltaVal_epochedWrite _ _ _
        · exact deltaVal_epochedWrite _ _ _
    · have h' : (epochedGet (s.states a) (e + p.pipelineLen)).isSome =
          false := h
      unfold bondTokens
      simp only [bind, Except.bind, pure, Except.pure, throw, throwThe,
        MonadExceptOf.throw, validatorStateAt, isValidator, Option.getD_some]
      simp only [h', Bool.false_eq_true, and_false, if_false]
      simp only [hjail', hina', Option.isNone_some, Bool.false_eq_true,
        if_false, beq_self_eq_true, if_true]
      simp only [transferTokens, updateValidatorDeltas, updateTotalDeltas]
      cases hb : s.balanceOf a with
      | none =>
        simp only [hb]
        refine ⟨_, rfl, rfl, rfl, rfl, ?_, ?_, ?_⟩
        · simp only [updAA, if_pos (And.intro rfl rfl)]
          exact deltaVal_epochedWrite _ _ _
        · simp only [updA, if_pos rfl, updAA, if_pos (And.intro rfl rfl),
            if_true]
          exact deltaVal_epochedWrite _ _ _
        · exact deltaVal_epochedWrite _ _ _
      | some b =>
        simp only [hb]
        refine ⟨_, rfl, rfl, rfl, rfl, ?_, ?_, ?_⟩
        · simp only [updAA, if_pos (And.intro rfl rfl)]
          exact deltaVal_epochedWrite _ _ _
        · simp only [updA, if_pos rfl, updAA, if_pos (And.intro rfl rfl),
            if_true]
          exact deltaVal_epochedWrite _ _ _
        · exact deltaVal_epochedWrite _ _ _

/-- C8 witness: bonding 10 tokens to the jailed validator of the frozen
scenario state succeeds with the validator sets untouched. -/
theorem claim_C8_witness :
    ∃ s', bondTokens sFrozen stdParams none (.user 1) 10 0 = .ok s' ∧
      s'.consensusSet = sFrozen.consensusSet ∧
      s'.belowCapSet = sFrozen.belowCapSet ∧
      s'.positions = sFrozen.positions ∧
      deltaVal (s'.bonds ((none : Option Addr).getD (.user 1)) (.user 1))
          (0 + stdParams.pipelineLen) =
        some ((deltaVal (sFrozen.bonds ((none : Option Addr).getD (.user 1))
          (.user 1)) (0 + stdParams.pipelineLen)).getD 0 + (10 : Int)) ∧
      deltaVal (s'.deltas (.user 1)) (0 + stdParams.pipelineLen) =
        some ((deltaVal (sFrozen.deltas (.user 1))
          (0 + stdParams.pipelineLen)).getD 0 + (10 : Int)) ∧
      deltaVal s'.totalDeltas (0 + stdParams.pipelineLen) =
        some ((deltaVal sFrozen.totalDeltas
          (0 + stdParams.pipelineLen)).getD 0 + (10 : Int)) :=
  claim_C8 sFrozen stdParams none (.user 1) 10 0
    (fun _ h => Option.noConfusion h) (by decide) (by decide)

/-- C10 witness: the hypotheses of the insufficient-balance and missing-
balance conjuncts hold at a concrete state with a 5-token balance and an
8-token transfer. -/
theorem claim_C10_witness :
    (∃ s', transferTokens
      { emptyState with balanceOf := updA emptyState.balanceOf (.user 1) (some 5) }
      8 (.user 1) (.user 2) = .ok s' ∧
      s'.balanceOf (.user 1) = some 0 ∧
      s'.balanceOf (.user 2) = some
        (({ emptyState with
            balanceOf := updA emptyState.balanceOf (.user 1) (some 5)
          : PosState }.balanceOf (.user 2)).getD 0 + 8)) ∧
    transferTokens emptyState 8 (.user 1) (.user 2) = .ok emptyState :=
  ⟨claim_C10.2.1
      { emptyState with balanceOf := updA emptyState.balanceOf (.user 1) (some 5) }
      8 (.user 1) (.user 2) 5 (by decide) (by decide) (by decide),
    claim_C10.2.2.1 emptyState 8 (.user 1) (.user 2) (by decide)⟩

theorem insertSortedBy_perm (lt : α → α → Bool) (x : α) (l : List α) :
    List.Perm (insertSortedBy lt x l) (x :: l) := by
  induction l with
  | nil => exact List.Perm.refl _
  | cons y ys ih =>
    unfold insertSortedBy
    by_cases h : lt y x
    · simp only [h, if_true]
      exact (ih.cons y).trans (List.Perm.swap x y ys)
    · simp only [h, if_false]
      exact List.Perm.refl _

theorem sortListBy_perm (lt : α → α → Bool) (l : List α) :
    List.Perm (sortListBy lt l) l := by
  induction l with
  | nil => exact List.Perm.refl _
  | cons x xs ih =>
    unfold sortListBy
    exact (insertSortedBy_perm lt x (List.foldr (insertSortedBy lt) [] xs)).trans (ih.cons x)

theorem insertSortedBy_pairwise (x : Nat × Int) (l : List (Nat × Int))
    (h : l.Pairwise (fun a b => a.1 ≤ b.1)) :
    (insertSortedBy (fun a b => decide (a.1 < b.1)) x l).Pairwise
      (fun a b => a.1 ≤ b.1) := by
  induction l with
  | nil => exact List.pairwise_singleton _ _
  | cons y ys ih =>
    unfold insertSortedBy
    rcases List.pairwise_cons.mp h with ⟨hy, hys⟩
    cases hlt : decide (y.1 < x.1) with
    | true =>
      have hlt2 := of_decide_eq_true hlt
      simp only [if_true]
      refine List.pairwise_cons.mpr ⟨?_, ih hys⟩
      intro z hz
      rcases List.mem_cons.mp ((insertSortedBy_perm _ x ys).mem_iff.mp hz) with h2 | h2
      · rw [h2]; exact Nat.le_of_lt hlt2
      · exact hy z h2
    | false =>
      have hlt2 := of_decide_eq_false hlt
      simp only [Bool.false_eq_true, if_false]
      refine List.pairwise_cons.mpr ⟨?_, h⟩
      intro z hz
      rcases List.mem_cons.mp hz with h2 | h2
      · rw [h2]; exact Nat.le_of_not_lt hlt2
      · exact Nat.le_trans (Nat.le_of_not_lt hlt2) (hy z h2)

theorem sortListBy_pairwise (l : List (Nat × Int)) :
    (sortListBy (fun a b => decide (a.1 < b.1)) l).Pairwise
      (fun a b => a.1 ≤ b.1) := by
  induction l with
  | nil => exact List.Pairwise.nil
  | cons x xs ih => exact insertSortedBy_pairwise x _ ih

theorem unbondChunks_fst_sublist (l : List (Nat × Int)) (r : Nat) :
    List.Sublist ((unbondChunks l r).map (fun c => c.1)) (l.map Prod.fst) := by
  induction l generalizing r with
  | nil => simp [unbondChunks]
  | cons q rest ih =>
    unfold unbondChunks
    by_cases h : r = 0
    · simp only [h, if_true, List.map_nil]
      exact List.nil_sublist _
    · simp only [h, if_false, List.map_cons]
      exact (ih _).cons₂ _

theorem unbondChunks_sum (l : List (Nat × Int)) (r : Nat)
    (h : r ≤ (l.map (fun q => q.2.toNat)).sum) :
    ((unbondChunks l r).map (fun c => c.2.2)).sum = r := by
  induction l generalizing r with
  | nil =>
    simp only [List.map_nil, List.sum_nil, Nat.le_zero] at h
    simp [unbondChunks, h]
  | cons q rest ih =>
    unfold unbondChunks
    by_cases hr : r = 0
    · simp [hr]
    · simp only [hr, if_false, List.map_cons, List.sum_cons]
      have h2 : r - min q.2.toNat r ≤ (rest.map (fun q => q.2.toNat)).sum := by
        simp only [List.map_cons, List.sum_cons] at h
        omega
      rw [ih _ h2]
      omega

theorem updAA_same (f : Addr → Addr → β) (a b : Addr) (v : β) :
    updAA f a b v a b = v := by simp [updAA]

theorem unbondWriteStep_unbonds (src v : Addr) (wd : Nat) (st : PosState)
    (c : Nat × Nat × Nat) :
    (unbondWriteStep src v wd st c).unbonds src v =
      unbondMergeList (st.unbonds src v) wd c.1 c.2.2 := by
  simp [unbondWriteStep, updateUnbond, updAA]

theorem unbondWriteStep_bonds (src v : Addr) (wd : Nat) (st : PosState)
    (c : Nat × Nat × Nat) :
    (unbondWriteStep src v wd st c).bonds src v =
      epochedWrite (st.bonds src v) c.1 ((c.2.1 - c.2.2 : Nat) : Int) := by
  simp [unbondWriteStep, updateUnbond, updAA]

theorem foldl_unbondRecordStep_frame (v : Addr) (pe : Nat)
    (chunks : List (Nat × Nat × Nat)) (st : PosState) :
    (chunks.foldl (unbondRecordStep v pe) st).unbonds = st.unbonds ∧
    (chunks.foldl (unbondRecordStep v pe) st).bonds = st.bonds ∧
    (chunks.foldl (unbondRecordStep v pe) st).slashesOf = st.slashesOf ∧
    (chunks.foldl (unbondRecordStep v pe) st).balanceOf = st.balanceOf ∧
    (chunks.foldl (unbondRecordStep v pe) st).states = st.states ∧
    (chunks.foldl (unbondRecordStep v pe) st).deltas = st.deltas ∧
    (chunks.foldl (unbondRecordStep v pe) st).totalDeltas = st.totalDeltas ∧
    (chunks.foldl (unbondRecordStep v pe) st).consensusSet = st.consensusSet ∧
    (chunks.foldl (unbondRecordStep v pe) st).belowCapSet = st.belowCapSet ∧
    (chunks.foldl (unbondRecordStep v pe) st).positions = st.positions := by
  induction chunks generalizing st with
  | nil => exact ⟨rfl, rfl, rfl, rfl, rfl, rfl, rfl, rfl, rfl, rfl⟩
  | cons c cs ih => exact ih _

theorem foldl_unbondWriteStep_proj (src v : Addr) (wd : Nat)
    (chunks : List (Nat × Nat × Nat)) (st : PosState) :
    (chunks.foldl (unbondWriteStep src v wd) st).unbonds src v =
      chunks.foldl (fun l c => unbondMergeList l wd c.1 c.2.2)
        (st.unbonds src v) ∧
    (chunks.foldl (unbondWriteStep src v wd) st).bonds src v =
      chunks.foldl
        (fun l c => epochedWrite l c.1 ((c.2.1 - c.2.2 : Nat) : Int))
        (st.bonds src v) ∧
    (chunks.foldl (unbondWriteStep src v wd) st).slashesOf = st.slashesOf ∧
    (chunks.foldl (unbondWriteStep src v wd) st).balanceOf = st.balanceOf ∧
    (chunks.foldl (unbondWriteStep src v wd) st).states = st.states ∧
    (chunks.foldl (unbondWriteStep src v wd) st).deltas = st.deltas ∧
    (chunks.foldl (unbondWriteStep src v wd) st).totalDeltas = st.totalDeltas ∧
    (chunks.foldl (unbondWriteStep src v wd) st).consensusSet =
      st.consensusSet ∧
    (chunks.foldl (unbondWriteStep src v wd) st).belowCapSet =
      st.belowCapSet ∧
    (chunks.foldl (unbondWriteStep src v wd) st).positions = st.positions ∧
    (chunks.foldl (unbondWriteStep src v wd) st).unbondRecords =
      st.unbondRecords := by
  induction chunks generalizing st with
  | nil =>
    exact ⟨rfl, rfl, rfl, rfl, rfl, rfl, rfl, rfl, rfl, rfl, rfl⟩
  | cons c cs ih =>
    obtain ⟨h1, h2, h3, h4, h5, h6, h7, h8, h9, h10, h11⟩ := ih (unbondWriteStep src v wd st c)
    refine ⟨?_, ?_, h3, h4, h5, h6, h7, h8, h9, h10, h11⟩
    · rw [List.foldl_cons, List.foldl_cons, h1, unbondWriteStep_unbonds]
    · rw [List.foldl_cons, List.foldl_cons, h2, unbondWriteStep_bonds]

theorem mergeFold_eq_append (wd : Nat) (chunks : List (Nat × Nat × Nat)) :
    ∀ (l : List ((Nat × Nat) × Nat)),
      (∀ c ∈ chunks, ∀ q ∈ l, q.1 ≠ (wd, c.1)) →
      ((chunks.map (fun c => c.1)).Nodup) →
      chunks.foldl (fun l c => unbondMergeList l wd c.1 c.2.2) l =
        l ++ chunks.map (fun c => ((wd, c.1), c.2.2)) := by
  induction chunks with
  | nil => intro l _ _; simp
  | cons c cs ih =>
    intro l hfresh hnodup
    have hstep : unbondMergeList l wd c.1 c.2.2 = l ++ [((wd, c.1), c.2.2)] := by
      unfold unbondMergeList
      have hfilter : l.filter (fun q => !(q.1 == (wd, c.1))) = l := by
        apply List.filter_eq_self.mpr
        intro q hq
        have := hfresh c (List.mem_cons_self _ _) q hq
        simpa using this
      have hfind : l.find? (fun q => q.1 == (wd, c.1)) = none := by
        apply List.find?_eq_none.mpr
        intro q hq
        have := hfresh c (List.mem_cons_self _ _) q hq
        simpa using this
      rw [hfilter, hfind]
      simp
    rw [List.foldl_cons, hstep]
    rw [List.map_cons] at hnodup
    rcases List.nodup_cons.mp hnodup with ⟨hc, hnd⟩
    rw [ih _ ?_ hnd]
    · simp
    · intro c2 hc2 q hq
      rcases List.mem_append.mp hq with h | h
      · exact hfresh c2 (List.mem_cons_of_mem _ hc2) q h
      · rcases List.mem_singleton.mp h with rfl
        intro hcontra
        simp only [Prod.mk.injEq] at hcontra
        exact hc (hcontra.2 ▸ List.mem_map_of_mem _ hc2)
theorem foldl_unbondRecordStep_records (v : Addr) (pe : Nat)
    (chunks : List (Nat × Nat × Nat)) (st : PosState) :
    (chunks.foldl (unbondRecordStep v pe) st).unbondRecords v pe =
      st.unbondRecords v pe ++
        chunks.map (fun c => (⟨c.2.2, c.1⟩ : UnbondRecord)) := by
  induction chunks generalizing st with
  | nil => simp
  | cons c cs ih =>
    rw [List.foldl_cons, ih]
    have hstep : (unbondRecordStep v pe st c).unbondRecords v pe =
        st.unbondRecords v pe ++ [(⟨c.2.2, c.1⟩ : UnbondRecord)] := by
      simp [unbondRecordStep, pushUnbondRecord, updAN]
    rw [hstep]
    simp

theorem sum_toNat_of_nonneg (l : List (Nat × Int))
    (h : ∀ q ∈ l, 0 ≤ q.2) :
    ((l.map Prod.snd).sum).toNat = (l.map (fun q => q.2.toNat)).sum := by
  induction l with
  | nil => rfl
  | cons q qs ih =>
    have hq : 0 ≤ q.2 := (h q (List.mem_cons_self _ _))
    have hqs : ∀ r ∈ qs, 0 ≤ r.2 := fun r hr => h r (List.mem_cons_of_mem _ hr)
    have hsum : 0 ≤ (qs.map Prod.snd).sum := by
      apply List.sum_nonneg
      intro x hx
      rcases List.mem_map.mp hx with ⟨r, hr, rfl⟩
      exact hqs r hr
    simp only [List.map_cons, List.sum_cons]
    rw [Int.toNat_add hq hsum, ih hqs]

theorem getSlashedAmount_nil (p : PosParams) (amount : Nat) :
    getSlashedAmount p amount [] = (amount : Int) := by
  simp [getSlashedAmount, sortSlashesByEpoch, gsaLoop]

theorem unbondChunks_zero (l : List (Nat × Int)) : unbondChunks l 0 = [] := by
  cases l <;> simp [unbondChunks]

theorem unbond_chunks_pairwise (s : PosState) (src validator : Addr)
    (amount : Nat) :
    ((unbondChunks ((sortListBy (fun a b => decide (a.1 < b.1))
        (s.bonds src validator)).reverse) amount).map
          (fun c => c.1)).Pairwise (fun a b => b ≤ a) := by
  have hp1 : (sortListBy (fun a b => decide (a.1 < b.1))
      (s.bonds src validator)).Pairwise (fun a b => a.1 ≤ b.1) :=
    sortListBy_pairwise _
  have hp2 : ((sortListBy (fun a b => decide (a.1 < b.1))
      (s.bonds src validator)).map Prod.fst).Pairwise (fun a b => a ≤ b) :=
    List.pairwise_map.mpr hp1
  have hp3 : (((sortListBy (fun a b => decide (a.1 < b.1))
      (s.bonds src validator)).map Prod.fst).reverse).Pairwise
        (fun a b => b ≤ a) :=
    List.pairwise_reverse.mpr hp2
  have hp4 : (((sortListBy (fun a b => decide (a.1 < b.1))
      (s.bonds src validator)).reverse).map Prod.fst).Pairwise
        (fun a b => b ≤ a) := by
    rw [List.map_reverse]; exact hp3
  exact hp4.sublist (unbondChunks_fst_sublist _ _)

theorem unbond_chunks_nodup (s : PosState) (src validator : Addr)
    (amount : Nat)
    (hnodup : ((s.bonds src validator).map Prod.fst).Nodup) :
    ((unbondChunks ((sortListBy (fun a b => decide (a.1 < b.1))
        (s.bonds src validator)).reverse) amount).map
          (fun c => c.1)).Nodup := by
  have hperm : List.Perm ((sortListBy (fun a b => decide (a.1 < b.1))
      (s.bonds src validator)).reverse) (s.bonds src validator) :=
    (List.reverse_perm _).trans (sortListBy_perm _ _)
  have h1 : (((sortListBy (fun a b => decide (a.1 < b.1))
      (s.bonds src validator)).reverse).map Prod.fst).Nodup :=
    ((hperm.map Prod.fst).nodup_iff).mpr hnodup
  exact (unbondChunks_fst_sublist _ _).nodup h1

theorem unbond_chunks_sum (s : PosState) (p : PosParams)
    (src validator : Addr) (amount e : Nat)
    (hwf : ∀ q ∈ s.bonds src validator, 0 ≤ q.2 ∧ q.1 ≤ e + p.pipelineLen)
    (hrem : ¬ (deltaSum (s.bonds src validator)
      (e + p.pipelineLen)).getD 0 < (amount : Int)) :
    ((unbondChunks ((sortListBy (fun a b => decide (a.1 < b.1))
        (s.bonds src validator)).reverse) amount).map
          (fun c => c.2.2)).sum = amount := by
  rcases Nat.eq_zero_or_pos amount with hz | hpos
  · subst hz
    rw [unbondChunks_zero]
    rfl
  have hperm : List.Perm ((sortListBy (fun a b => decide (a.1 < b.1))
      (s.bonds src validator)).reverse) (s.bonds src validator) :=
    (List.reverse_perm _).trans (sortListBy_perm _ _)
  have hany : (s.bonds src validator).any
      (fun q => q.1 ≤ e + p.pipelineLen) = true := by
    cases hl : s.bonds src validator with
    | nil =>
      exfalso
      apply hrem
      rw [hl]
      simp only [deltaSum, List.any_nil, if_false]
      simp
      exact_mod_cast hpos
    | cons q qs =>
      have hq := (hwf q (by rw [hl]; exact List.mem_cons_self _ _)).2
      simp only [List.any_cons, Bool.or_eq_true, decide_eq_true_eq]
      exact Or.inl hq
  have hfilter : (s.bonds src validator).filter
      (fun q => q.1 ≤ e + p.pipelineLen) = s.bonds src validator := by
    apply List.filter_eq_self.mpr
    intro q hq
    exact decide_eq_true (hwf q hq).2
  have hdel : (deltaSum (s.bonds src validator) (e + p.pipelineLen)).getD 0 =
      (((s.bonds src validator).map Prod.snd).sum) := by
    rw [deltaSum, if_pos hany, hfilter]
    rfl
  rw [hdel] at hrem
  have hle : (amount : Int) ≤ ((s.bonds src validator).map Prod.snd).sum :=
    le_of_not_lt hrem
  have hle2 : amount ≤
      ((s.bonds src validator).map (fun q => q.2.toNat)).sum := by
    have := Int.toNat_le_toNat hle
    rwa [Int.toNat_natCast,
      sum_toNat_of_nonneg _ (fun q hq => (hwf q hq).1)] at this
  have hle3 : amount ≤
      ((((sortListBy (fun a b => decide (a.1 < b.1))
        (s.bonds src validator)).reverse).map (fun q => q.2.toNat)).sum) := by
    rw [(hperm.map (fun q => q.2.toNat)).sum_eq]
    exact hle2
  exact unbondChunks_sum _ amount hle3

theorem unbond_folds_effect (s : PosState) (src validator : Addr)
    (wd pe : Nat) (chunks : List (Nat × Nat × Nat))
    (hfr : ∀ c ∈ chunks, ∀ q ∈ s.unbonds src validator, q.1 ≠ (wd, c.1))
    (hnd : (chunks.map (fun c => c.1)).Nodup) :
    (chunks.foldl (unbondWriteStep src validator wd)
        (chunks.foldl (unbondRecordStep validator pe) s)).unbonds src
          validator =
      s.unbonds src validator ++
        chunks.map (fun c => ((wd, c.1), c.2.2)) ∧
    (chunks.foldl (unbondWriteStep src validator wd)
        (chunks.foldl (unbondRecordStep validator pe) s)).bonds src
          validator =
      chunks.foldl
        (fun l c => epochedWrite l c.1 ((c.2.1 - c.2.2 : Nat) : Int))
        (s.bonds src validator) ∧
    (chunks.foldl (unbondWriteStep src validator wd)
        (chunks.foldl (unbondRecordStep validator pe) s)).unbondRecords
          validator pe =
      s.unbondRecords validator pe ++
        chunks.map (fun c => (⟨c.2.2, c.1⟩ : UnbondRecord)) ∧
    (chunks.foldl (unbondWriteStep src validator wd)
        (chunks.foldl (unbondRecordStep validator pe) s)).balanceOf =
      s.balanceOf ∧
    (chunks.foldl (unbondWriteStep src validator wd)
        (chunks.foldl (unbondRecordStep validator pe) s)).slashesOf =
      s.slashesOf := by
  obtain ⟨hr1, hr2, hr3, hr4, hr5, hr6, hr7, hr8, hr9, hr10⟩ :=
    foldl_unbondRecordStep_frame validator pe chunks s
  obtain ⟨hw1, hw2, hw3, hw4, hw5, hw6, hw7, hw8, hw9, hw10, hw11⟩ :=
    foldl_unbondWriteStep_proj src validator wd chunks
      (chunks.foldl (unbondRecordStep validator pe) s)
  refine ⟨?_, ?_, ?_, ?_, ?_⟩
  · rw [hw1, hr1]
    exact mergeFold_eq_append wd chunks _ hfr hnd
  · rw [hw2, hr2]
  · rw [hw11, foldl_unbondRecordStep_records]
  · rw [hw4, hr4]
  · rw [hw3, hr3]

theorem unbondTokens_effect (s : PosState) (p : PosParams)
    (src validator : Addr) (amount e : Nat) (s' : PosState)
    (hwf : ∀ q ∈ s.bonds src validator, 0 ≤ q.2 ∧ q.1 ≤ e + p.pipelineLen)
    (hnodup : ((s.bonds src validator).map Prod.fst).Nodup)
    (hfresh : ∀ q ∈ s.unbonds src validator,
      q.1.1 ≠ e + p.pipelineLen + p.unbondingLen)
    (hu : unbondTokens s p (some src) validator amount e = .ok s') :
    (((unbondChunks ((sortListBy (fun a b => a.1 < b.1)
        (s.bonds src validator)).reverse) amount).map
          (fun c => c.1)).Pairwise (fun a b => b ≤ a)) ∧
    ((unbondChunks ((sortListBy (fun a b => a.1 < b.1)
        (s.bonds src validator)).reverse) amount).map
          (fun c => c.2.2)).sum = amount ∧
    s'.unbonds src validator =
      s.unbonds src validator ++
        (unbondChunks ((sortListBy (fun a b => a.1 < b.1)
          (s.bonds src validator)).reverse) amount).map
            (fun c => ((e + p.pipelineLen + p.unbondingLen, c.1), c.2.2)) ∧
    s'.bonds src validator =
      (unbondChunks ((sortListBy (fun a b => a.1 < b.1)
        (s.bonds src validator)).reverse) amount).foldl
          (fun l c => epochedWrite l c.1 ((c.2.1 - c.2.2 : Nat) : Int))
          (s.bonds src validator) ∧
    s'.unbondRecords validator (e + p.pipelineLen) =
      s.unbondRecords validator (e + p.pipelineLen) ++
        (unbondChunks ((sortListBy (fun a b => a.1 < b.1)
          (s.bonds src validator)).reverse) amount).map
            (fun c => (⟨c.2.2, c.1⟩ : UnbondRecord)) ∧
    s'.balanceOf = s.balanceOf ∧ s'.slashesOf = s.slashesOf := by
  unfold unbondTokens at hu
  simp only [bind, Except.bind, pure, Except.pure, throw, throwThe,
    MonadExceptOf.throw, Option.getD_some] at hu
  repeat' split at hu
  all_goals cases hu
  · rename_i hg hv hf hrem hjail
    have hfr : ∀ c ∈ (unbondChunks ((sortListBy (fun a b => decide (a.1 < b.1))
        (s.bonds src validator)).reverse) amount),
        ∀ q ∈ s.unbonds src validator,
        q.1 ≠ (e + p.pipelineLen + p.unbondingLen, c.1) := by
      intro c _ q hq hcontra
      exact hfresh q hq (by rw [hcontra])
    have hnd := unbond_chunks_nodup s src validator amount hnodup
    obtain ⟨he1, he2, he3, he4, he5⟩ :=
      unbond_folds_effect s src validator
        (e + p.pipelineLen + p.unbondingLen) (e + p.pipelineLen) _ hfr hnd
    exact ⟨unbond_chunks_pairwise s src validator amount,
      unbond_chunks_sum s p src validator amount e hwf hrem,
      he1, he2, he3, he4, he5⟩
  · rename_i hg hv hf hrem hjail x a heq
    have hfr : ∀ c ∈ (unbondChunks ((sortListBy (fun a b => decide (a.1 < b.1))
        (s.bonds src validator)).reverse) amount),
        ∀ q ∈ s.unbonds src validator,
        q.1 ≠ (e + p.pipelineLen + p.unbondingLen, c.1) := by
      intro c _ q hq hcontra
      exact hfresh q hq (by rw [hcontra])
    have hnd := unbond_chunks_nodup s src validator amount hnodup
    obtain ⟨he1, he2, he3, he4, he5⟩ :=
      unbond_folds_effect s src validator
        (e + p.pipelineLen + p.unbondingLen) (e + p.pipelineLen) _ hfr hnd
    obtain ⟨hf1, hf2, hf3, hf4, _, _, hf7, _⟩ :=
      updateValidatorSet_frame _ _ _ _ _ _ heq
    refine ⟨unbond_chunks_pairwise s src validator amount,
      unbond_chunks_sum s p src validator amount e hwf hrem, ?_, ?_, ?_, ?_, ?_⟩
    · show a.unbonds src validator = _
      rw [hf1]
      exact he1
    · show a.bonds src validator = _
      rw [hf4]
      exact he2
    · show a.unbondRecords validator (e + p.pipelineLen) = _
      rw [hf7]
      exact he3
    · show a.balanceOf = _
      rw [hf2]
      exact he4
    · show a.slashesOf = _
      rw [hf3]
      exact he5

/-- **C4**: every successful `unbond(src, val, amount, e_c)` consumes the
bond's delta entries newest-first (the consumed start epochs are in
descending order), the consumed chunks exactly cover `amount`, each chunk
is stored in the unbond map under
`withdraw_epoch = e_c + pipeline_len + unbonding_len` (and pushed as an
unbond record `{amount, start}` under the pipeline epoch), and the
corresponding bond deltas are decremented.  In scenario S3 the unbond of
200 at epoch 3 yields exactly the unbond entry
`(withdraw = 7, start = 3, amount = 200)` and the bond delta at 3 drops to
300. -/
theorem claim_C4 :
    (∀ (s : PosState) (p : PosParams) (src validator : Addr)
        (amount e : Nat) (s' : PosState),
      (∀ q ∈ s.bonds src validator, 0 ≤ q.2 ∧ q.1 ≤ e + p.pipelineLen) →
      ((s.bonds src validator).map Prod.fst).Nodup →
      (∀ q ∈ s.unbonds src validator,
        q.1.1 ≠ e + p.pipelineLen + p.unbondingLen) →
      unbondTokens s p (some src) validator amount e = .ok s' →
      (((unbondChunks ((sortListBy (fun a b => decide (a.1 < b.1))
          (s.bonds src validator)).reverse) amount).map
            (fun c => c.1)).Pairwise (fun a b => b ≤ a)) ∧
      ((unbondChunks ((sortListBy (fun a b => decide (a.1 < b.1))
          (s.bonds src validator)).reverse) amount).map
            (fun c => c.2.2)).sum = amount ∧
      s'.unbonds src validator =
        s.unbonds src validator ++
          (unbondChunks ((sortListBy (fun a b => decide (a.1 < b.1))
            (s.bonds src validator)).reverse) amount).map
              (fun c => ((e + p.pipelineLen + p.unbondingLen, c.1),
                c.2.2)) ∧
      s'.bonds src validator =
        (unbondChunks ((sortListBy (fun a b => decide (a.1 < b.1))
          (s.bonds src validator)).reverse) amount).foldl
            (fun l c => epochedWrite l c.1 ((c.2.1 - c.2.2 : Nat) : Int))
            (s.bonds src validator) ∧
      s'.unbondRecords validator (e + p.pipelineLen) =
        s.unbondRecords validator (e + p.pipelineLen) ++
          (unbondChunks ((sortListBy (fun a b => decide (a.1 < b.1))
            (s.bonds src validator)).reverse) amount).map
              (fun c => (⟨c.2.2, c.1⟩ : UnbondRecord))) ∧
    (s3UnbondRun = .ok sAfterUnbond ∧
     sAfterUnbond.unbonds (.user 10) (.user 1) = [((7, 3), 200)] ∧
     deltaVal (sAfterUnbond.bonds (.user 10) (.user 1)) 3 = some 300) := by
  constructor
  · intro s p src validator amount e s' hwf hnodup hfresh hu
    obtain ⟨h1, h2, h3, h4, h5, _, _⟩ :=
      unbondTokens_effect s p src validator amount e s' hwf hnodup hfresh hu
    exact ⟨h1, h2, h3, h4, h5⟩
  · exact ⟨rfl, by decide, by decide⟩

/-- Closed witness for the C4 hypotheses: the S3 unbond instance satisfies
every precondition and the derived conclusions evaluate on it. -/
theorem claim_C4_witness :
    (((unbondChunks ((sortListBy (fun a b => decide (a.1 < b.1))
        (sPreUnbond.bonds (.user 10) (.user 1))).reverse) 200).map
          (fun c => c.1)).Pairwise (fun a b => b ≤ a)) ∧
    ((unbondChunks ((sortListBy (fun a b => decide (a.1 < b.1))
        (sPreUnbond.bonds (.user 10) (.user 1))).reverse) 200).map
          (fun c => c.2.2)).sum = 200 ∧
    sAfterUnbond.unbonds (.user 10) (.user 1) =
      sPreUnbond.unbonds (.user 10) (.user 1) ++
        (unbondChunks ((sortListBy (fun a b => decide (a.1 < b.1))
          (sPreUnbond.bonds (.user 10) (.user 1))).reverse) 200).map
            (fun c => ((3 + s3Params.pipelineLen + s3Params.unbondingLen,
              c.1), c.2.2)) ∧
    sAfterUnbond.bonds (.user 10) (.user 1) =
      (unbondChunks ((sortListBy (fun a b => decide (a.1 < b.1))
        (sPreUnbond.bonds (.user 10) (.user 1))).reverse) 200).foldl
          (fun l c => epochedWrite l c.1 ((c.2.1 - c.2.2 : Nat) : Int))
          (sPreUnbond.bonds (.user 10) (.user 1)) ∧
    sAfterUnbond.unbondRecords (.user 1) (3 + s3Params.pipelineLen) =
      sPreUnbond.unbondRecords (.user 1) (3 + s3Params.pipelineLen) ++
        (unbondChunks ((sortListBy (fun a b => decide (a.1 < b.1))
          (sPreUnbond.bonds (.user 10) (.user 1))).reverse) 200).map
            (fun c => (⟨c.2.2, c.1⟩ : UnbondRecord)) :=
  claim_C4.1 sPreUnbond s3Params (.user 10) (.user 1) 200 3 sAfterUnbond
    (by decide) (by decide) (by decide) rfl

theorem mature_fold (ec : Nat) (l : List ((Nat × Nat) × Nat)) :
    ∀ (acc : Nat × List (Nat × Nat)),
      (∀ en ∈ l, en.1.1 ≤ ec) →
      l.foldl (fun acc en => if ec < en.1.1 then acc
        else (acc.1 + en.2, acc.2 ++ [en.1])) acc =
      (acc.1 + (l.map (fun en => en.2)).sum, acc.2 ++ l.map Prod.fst) := by
  induction l with
  | nil => intro acc _; simp
  | cons en l ih =>
    intro acc hm
    have h1 : ¬ ec < en.1.1 := not_lt.mpr (hm en (List.mem_cons_self _ _))
    rw [List.foldl_cons, if_neg h1,
      ih _ (fun q hq => hm q (List.mem_cons_of_mem _ hq))]
    simp [add_assoc]

theorem withdraw_exact (s : PosState) (p : PosParams) (src validator : Addr)
    (x e ec b : Nat) (s1 : PosState)
    (hwf : ∀ q ∈ s.bonds src validator, 0 ≤ q.2 ∧ q.1 ≤ e + p.pipelineLen)
    (hnodup : ((s.bonds src validator).map Prod.fst).Nodup)
    (hemp : s.unbonds src validator = [])
    (hsl : s.slashesOf validator = [])
    (hx : 0 < x)
    (hu : unbondTokens s p (some src) validator x e = .ok s1)
    (hwd : e + p.pipelineLen + p.unbondingLen ≤ ec)
    (hposb : s.balanceOf Addr.pos = some b) :
    ∃ s2, withdrawTokens s1 p (some src) validator ec = .ok (s2, x) ∧
      s2.balanceOf src = some ((s.balanceOf src).getD 0 + x) ∧
      s2.unbonds src validator = [] := by
  have hfresh : ∀ q ∈ s.unbonds src validator,
      q.1.1 ≠ e + p.pipelineLen + p.unbondingLen := by
    rw [hemp]
    intro q hq
    cases hq
  obtain ⟨hpw, hsum, hub, hbd, hrec, hbal, hslf⟩ :=
    unbondTokens_effect s p src validator x e s1 hwf hnodup hfresh hu
  rw [hemp, List.nil_append] at hub
  have hne : unbondChunks ((sortListBy (fun a b => decide (a.1 < b.1))
      (s.bonds src validator)).reverse) x ≠ [] := by
    intro h
    rw [h] at hsum
    simp at hsum
    omega
  have hie : ((unbondChunks ((sortListBy (fun a b => decide (a.1 < b.1))
      (s.bonds src validator)).reverse) x).map
        (fun c => ((e + p.pipelineLen + p.unbondingLen, c.1),
          c.2.2))).isEmpty = false :=
    List.isEmpty_eq_false.mpr (fun h => hne (List.map_eq_nil_iff.mp h))
  unfold withdrawTokens
  simp only [bind, Except.bind, pure, Except.pure, throw, throwThe,
    MonadExceptOf.throw, Option.getD_some, hub, hslf, hsl, hie,
    Bool.false_eq_true, if_false, List.filter_nil, getSlashedAmount_nil,
    Int.toNat_natCast]
  have hmat : ∀ en ∈ sortListBy
      (fun a b => decide (a.1.1 < b.1.1 ∨ a.1.1 = b.1.1 ∧ a.1.2 < b.1.2))
      ((unbondChunks ((sortListBy (fun a b => decide (a.1 < b.1))
        (s.bonds src validator)).reverse) x).map
          (fun c => ((e + p.pipelineLen + p.unbondingLen, c.1), c.2.2))),
      en.1.1 ≤ ec := by
    intro en hen
    have h2 := (sortListBy_perm _ _).mem_iff.mp hen
    rcases List.mem_map.mp h2 with ⟨c, _, rfl⟩
    exact hwd
  rw [mature_fold ec _ (0, []) hmat]
  simp only [Nat.zero_add, List.nil_append]
  have hsx : ((sortListBy
      (fun a b => decide (a.1.1 < b.1.1 ∨ a.1.1 = b.1.1 ∧ a.1.2 < b.1.2))
      ((unbondChunks ((sortListBy (fun a b => decide (a.1 < b.1))
        (s.bonds src validator)).reverse) x).map
          (fun c => ((e + p.pipelineLen + p.unbondingLen, c.1),
            c.2.2)))).map (fun en => en.2)).sum = x := by
    rw [((sortListBy_perm _ _).map _).sum_eq, List.map_map]
    simpa using hsum
  have hfil : ((unbondChunks ((sortListBy (fun a b => decide (a.1 < b.1))
      (s.bonds src validator)).reverse) x).map
        (fun c => ((e + p.pipelineLen + p.unbondingLen, c.1),
          c.2.2))).filter
      (fun en => !((sortListBy
        (fun a b => decide (a.1.1 < b.1.1 ∨ a.1.1 = b.1.1 ∧ a.1.2 < b.1.2))
        ((unbondChunks ((sortListBy (fun a b => decide (a.1 < b.1))
          (s.bonds src validator)).reverse) x).map
            (fun c => ((e + p.pipelineLen + p.unbondingLen, c.1),
              c.2.2)))).map Prod.fst).contains en.1) = [] := by
    apply List.filter_eq_nil_iff.mpr
    intro en hen
    have h2 : en ∈ sortListBy
        (fun a b => decide (a.1.1 < b.1.1 ∨ a.1.1 = b.1.1 ∧ a.1.2 < b.1.2))
        ((unbondChunks ((sortListBy (fun a b => decide (a.1 < b.1))
          (s.bonds src validator)).reverse) x).map
            (fun c => ((e + p.pipelineLen + p.unbondingLen, c.1), c.2.2))) :=
      (sortListBy_perm _ _).mem_iff.mpr hen
    have h3 := List.mem_map_of_mem Prod.fst h2
    have h4 : ((sortListBy
        (fun a b => decide (a.1.1 < b.1.1 ∨ a.1.1 = b.1.1 ∧ a.1.2 < b.1.2))
        ((unbondChunks ((sortListBy (fun a b => decide (a.1 < b.1))
          (s.bonds src validator)).reverse) x).map
            (fun c => ((e + p.pipelineLen + p.unbondingLen, c.1),
              c.2.2)))).map Prod.fst).contains en.1 = true :=
      List.elem_eq_true_of_mem h3
    intro hcontra
    rw [h4] at hcontra
    cases hcontra
  rw [hsx, hfil]
  simp only [transferTokens, hbal, hposb]
  refine ⟨_, rfl, ?_, ?_⟩
  · simp [updA, hbal]
  · simp [updAA]

/-- **C9**: after `A` unbonds `x` from validator `V` — with no slash of `V`
recorded, no prior unbond entries for the pair, and a positive amount —
calling withdraw at or past the unbond's withdraw epoch
`e_c + pipeline_len + unbonding_len` succeeds, returns exactly `x`, credits
exactly `x` tokens back to `A`'s balance and clears the unbond entries.  In
scenario S3 the withdraw at epoch 7 returns exactly 200 tokens and leaves
the delegator with balance 200. -/
theorem claim_C9 :
    (∀ (s : PosState) (p : PosParams) (src validator : Addr)
        (x e ec b : Nat) (s1 : PosState),
      (∀ q ∈ s.bonds src validator, 0 ≤ q.2 ∧ q.1 ≤ e + p.pipelineLen) →
      ((s.bonds src validator).map Prod.fst).Nodup →
      s.unbonds src validator = [] →
      s.slashesOf validator = [] →
      0 < x →
      unbondTokens s p (some src) validator x e = .ok s1 →
      e + p.pipelineLen + p.unbondingLen ≤ ec →
      s.balanceOf Addr.pos = some b →
      ∃ s2, withdrawTokens s1 p (some src) validator ec = .ok (s2, x) ∧
        s2.balanceOf src = some ((s.balanceOf src).getD 0 + x) ∧
        s2.unbonds src validator = []) ∧
    (s3WithdrawRun = .ok (sAfterWithdraw, 200) ∧
     sAfterWithdraw.balanceOf (.user 10) = some 200) := by
  constructor
  · intro s p src validator x e ec b s1 h1 h2 h3 h4 h5 h6 h7 h8
    exact withdraw_exact s p src validator x e ec b s1 h1 h2 h3 h4 h5 h6 h7 h8
  · exact ⟨rfl, by decide⟩

/-- Closed witness for the C9 hypotheses: the S3 unbond-then-withdraw
instance satisfies every precondition, with the withdraw taken directly at
the withdraw epoch 7. -/
theorem claim_C9_witness :
    ∃ s2, withdrawTokens sAfterUnbond s3Params (some (.user 10)) (.user 1) 7 =
        .ok (s2, 200) ∧
      s2.balanceOf (.user 10) =
        some ((sPreUnbond.balanceOf (.user 10)).getD 0 + 200) ∧
      s2.unbonds (.user 10) (.user 1) = [] :=
  claim_C9.1 sPreUnbond s3Params (.user 10) (.user 1) 200 3 7 1500
    sAfterUnbond (by decide) (by decide) (by decide) (by decide) (by decide)
    rfl (by decide) (by decide)

theorem updA_self (f : Addr → β) (a : Addr) : updA f a (f a) = f := by
  funext b
  unfold updA
  by_cases hb : b = a
  · rw [if_pos hb, hb]
  · rw [if_neg hb]

theorem transferTokens_inv (s : PosState) (amount : Nat) (a b : Addr)
    (t : PosState) (h : transferTokens s amount a b = .ok t) :
    t.slashesOf = s.slashesOf ∧ t.unbonds = s.unbonds := by
  unfold transferTokens at h
  split at h <;> cases h <;> exact ⟨rfl, rfl⟩

theorem applySlashDelta_fold_slashes (c i : Nat) (v : Addr)
    (l : List (Nat × Int)) :
    ∀ (acc : PosState × Int),
      ((l.foldl (applySlashDelta c i v) acc).1).slashesOf =
        acc.1.slashesOf := by
  induction l with
  | nil => intro acc; rfl
  | cons od rest ih =>
    intro acc
    rw [List.foldl_cons, ih]
    rfl

theorem phase2_fold_slashes (c i : Nat)
    (entries : List (Addr × List (Nat × Int))) :
    ∀ (acc : PosState × Int),
      ((entries.foldl
        (fun (acc : PosState × Int) vq =>
          ((vq.2.foldl (applySlashDelta c i vq.1) (acc.1, 0)).1,
            acc.2 + (vq.2.foldl (applySlashDelta c i vq.1) (acc.1, 0)).2))
        acc).1).slashesOf = acc.1.slashesOf := by
  induction entries with
  | nil => intro acc; rfl
  | cons vq rest ih =>
    intro acc
    rw [List.foldl_cons, ih]
    exact applySlashDelta_fold_slashes c i vq.1 vq.2 (acc.1, 0)

theorem pes_fold_slashes (p : PosParams) (c i : Nat) (v : Addr) (stake : Nat)
    (lv : List Slash) :
    ∀ (acc : PosState × List (Nat × Int)),
      ((lv.foldl (processEnqueuedSlash p c i v stake) acc).1).slashesOf =
        updA acc.1.slashesOf v (acc.1.slashesOf v ++ lv) := by
  induction lv with
  | nil =>
    intro acc
    rw [List.foldl_nil, List.append_nil, updA_self]
  | cons enq rest ih =>
    intro acc
    rw [List.foldl_cons, ih (processEnqueuedSlash p c i v stake acc enq)]
    have hS : (processEnqueuedSlash p c i v stake acc enq).1.slashesOf =
        updA acc.1.slashesOf v (acc.1.slashesOf v ++ [enq]) := rfl
    rw [hS]
    funext b
    by_cases hb : b = v <;> simp [updA, hb]

theorem phase1_fold_frame (p : PosParams) (c i : Nat)
    (entries : List (Addr × List Slash)) :
    ∀ (acc : PosState × List (Addr × List (Nat × Int))) (w : Addr),
      w ∉ entries.map Prod.fst →
      ((entries.foldl
        (fun (acc : PosState × List (Addr × List (Nat × Int))) vq =>
          ((vq.2.foldl (processEnqueuedSlash p c i vq.1
              ((readValidatorStakeOpt acc.1 vq.1 i).getD 0)) (acc.1, [])).1,
            acc.2 ++ [(vq.1, (vq.2.foldl (processEnqueuedSlash p c i vq.1
              ((readValidatorStakeOpt acc.1 vq.1 i).getD 0))
              (acc.1, [])).2)])) acc).1).slashesOf w =
        acc.1.slashesOf w := by
  induction entries with
  | nil => intro acc w _; rfl
  | cons vq rest ih =>
    intro acc w hw
    have hne : w ≠ vq.1 := by
      intro h
      exact hw (by rw [List.map_cons]; exact h ▸ List.mem_cons_self _ _)
    rw [List.foldl_cons, ih _ w (fun h => hw (by
      rw [List.map_cons]; exact List.mem_cons_of_mem _ h))]
    have h3 : updA acc.1.slashesOf vq.1 (acc.1.slashesOf vq.1 ++ vq.2) w =
        acc.1.slashesOf w := by simp [updA, hne]
    exact (congrFun (pes_fold_slashes p c i vq.1
      ((readValidatorStakeOpt acc.1 vq.1 i).getD 0) vq.2 (acc.1, [])) w).trans
      h3

theorem phase1_fold_member (p : PosParams) (c i : Nat)
    (entries : List (Addr × List Slash)) :
    ∀ (acc : PosState × List (Addr × List (Nat × Int))) (v : Addr)
      (lv : List Slash),
      (v, lv) ∈ entries →
      (entries.map Prod.fst).Nodup →
      ((entries.foldl
        (fun (acc : PosState × List (Addr × List (Nat × Int))) vq =>
          ((vq.2.foldl (processEnqueuedSlash p c i vq.1
              ((readValidatorStakeOpt acc.1 vq.1 i).getD 0)) (acc.1, [])).1,
            acc.2 ++ [(vq.1, (vq.2.foldl (processEnqueuedSlash p c i vq.1
              ((readValidatorStakeOpt acc.1 vq.1 i).getD 0))
              (acc.1, [])).2)])) acc).1).slashesOf v =
        acc.1.slashesOf v ++ lv := by
  induction entries with
  | nil => intro acc v lv hmem _; cases hmem
  | cons vq rest ih =>
    intro acc v lv hmem hnd
    rw [List.map_cons] at hnd
    rcases List.nodup_cons.mp hnd with ⟨hw, hnd2⟩
    rcases List.mem_cons.mp hmem with heq | hmem2
    · cases heq
      rw [List.foldl_cons, phase1_fold_frame p c i rest _ v hw]
      have h3 : updA acc.1.slashesOf v (acc.1.slashesOf v ++ lv) v =
          acc.1.slashesOf v ++ lv := by simp [updA]
      exact (congrFun (pes_fold_slashes p c i v
        ((readValidatorStakeOpt acc.1 v i).getD 0) lv (acc.1, [])) v).trans h3
    · have hne : v ≠ vq.1 := by
        intro h
        exact hw (h ▸ List.mem_map_of_mem Prod.fst hmem2)
      rw [List.foldl_cons, ih _ v lv hmem2 hnd2]
      have h3 : updA acc.1.slashesOf vq.1 (acc.1.slashesOf vq.1 ++ vq.2) v =
          acc.1.slashesOf v := by simp [updA, hne]
      exact congrArg (fun t => t ++ lv)
        ((congrFun (pes_fold_slashes p c i vq.1
          ((readValidatorStakeOpt acc.1 vq.1 i).getD 0) vq.2 (acc.1, [])) v).trans
          h3)

/-- **C7**: when `process_slashes` runs at epoch `e_c` past the no-op
guards, every slash enqueued for a validator is finalized and appended to
that validator's slash list with rate
`min(1, max(type_base_rate, compute_cubic_slash_rate))`, the cubic rate
being `9·f²` over the window around the infraction epoch
`e_c − unbonding_len − 1`.  In scenario S4 the slash of the sole infractor
holding the whole stake is processed at epoch 9 with final rate 1 and the
whole 1000-token stake is transferred to the slash pool. -/
theorem claim_C7 :
    (∀ (s : PosState) (p : PosParams) (ec : Nat) (s' : PosState) (v : Addr)
        (lv : List Slash),
      p.unbondingLen + 1 ≤ ec →
      ((s.enqueuedSlashes ec).map Prod.fst).Nodup →
      (v, lv) ∈ s.enqueuedSlashes ec →
      processSlashes s p ec = .ok s' →
      s'.slashesOf v = s.slashesOf v ++ lv.map (fun es =>
        (⟨es.epoch, es.blockHeight, es.stype,
          qMin 1 (qMax (es.stype.getSlashRate p)
            (computeCubicSlashRate s p (ec - p.unbondingLen - 1)))⟩ :
          Slash))) ∧
    (s4ProcessRun = .ok sS4 ∧
     sS4.slashesOf (.user 1) = [⟨4, 1, .duplicateVote, 1⟩] ∧
     getFinalCubicSlashRate sS4Pre stdParams 4 .duplicateVote = 1 ∧
     sS4.balanceOf .slashPool = some 1000) := by
  constructor
  · intro s p ec s' v lv hge hnd hmem hproc
    have h1 : ¬ (ec < p.unbondingLen + 1) := not_lt.mpr hge
    have h2 : (s.enqueuedSlashes ec).isEmpty = false := by
      cases hq : s.enqueuedSlashes ec with
      | nil => rw [hq] at hmem; cases hmem
      | cons a l => rfl
    unfold processSlashes at hproc
    simp only [bind, Except.bind, pure, Except.pure, h1, if_false, h2,
      Bool.false_eq_true] at hproc
    split at hproc
    · rename_i err heq
      cases hproc
    · rename_i t heq
      cases hproc
      obtain ⟨ht1, _⟩ := transferTokens_inv _ _ _ _ _ heq
      rw [ht1, phase2_fold_slashes]
      have hkeys : (((s.enqueuedSlashes ec).map (fun q => (q.1,
          q.2.map (fun es => (⟨es.epoch, es.blockHeight, es.stype,
            qMin 1 (qMax (es.stype.getSlashRate p)
              (computeCubicSlashRate s p (ec - p.unbondingLen - 1)))⟩ :
            Slash))))).map Prod.fst).Nodup := by
        rw [List.map_map]
        exact hnd
      have hmem2 : (v, lv.map (fun es => (⟨es.epoch, es.blockHeight,
          es.stype, qMin 1 (qMax (es.stype.getSlashRate p)
            (computeCubicSlashRate s p (ec - p.unbondingLen - 1)))⟩ :
          Slash))) ∈ (s.enqueuedSlashes ec).map (fun q => (q.1,
          q.2.map (fun es => (⟨es.epoch, es.blockHeight, es.stype,
            qMin 1 (qMax (es.stype.getSlashRate p)
              (computeCubicSlashRate s p (ec - p.unbondingLen - 1)))⟩ :
            Slash)))) :=
        List.mem_map_of_mem _ hmem
      exact phase1_fold_member p ec (ec - p.unbondingLen - 1) _ (s, []) v _
        hmem2 hkeys
  · refine ⟨rfl, by decide, by decide, by decide⟩

/-- Closed witness for the C7 hypotheses: the S4 processing at epoch 9
satisfies every precondition and the finalized slash list of the sole
infractor follows from the theorem. -/
theorem claim_C7_witness :
    sS4.slashesOf (.user 1) = sS4Pre.slashesOf (.user 1) ++
      ([⟨4, 1, .duplicateVote, 0⟩] : List Slash).map (fun es =>
        (⟨es.epoch, es.blockHeight, es.stype,
          qMin 1 (qMax (es.stype.getSlashRate stdParams)
            (computeCubicSlashRate sS4Pre stdParams
              (9 - stdParams.unbondingLen - 1)))⟩ : Slash)) :=
  claim_C7.1 sS4Pre stdParams 9 sS4 (.user 1)
    ([⟨4, 1, .duplicateVote, 0⟩] : List Slash)
    (by decide) (by decide) (by decide) rfl

theorem expectO_ok {o : Option α} {v : α} (h : expectO o = .ok v) :
    o = some v := by
  cases o with
  | none => cases h
  | some x => cases h; rfl

theorem setLookup_mem (l : List SetEntry) (st po : Nat) (a : Addr)
    (h : setLookup l st po = some a) :
    ∃ en ∈ l, en.stake = st ∧ en.pos = po ∧ en.addr = a := by
  unfold setLookup at h
  cases hf : l.find? (fun en => en.stake == st && en.pos == po) with
  | none => rw [hf] at h; cases h
  | some en =>
    rw [hf] at h
    have hmem := List.mem_of_find?_eq_some hf
    have hpred := List.find?_some hf
    simp only [Bool.and_eq_true, beq_iff_eq] at hpred
    cases h
    exact ⟨en, hmem, hpred.1, hpred.2, rfl⟩

theorem checkInConsensus_lookup (l : List SetEntry) (v : Addr) (st po : Nat)
    (h : checkInConsensus l v st po = true) :
    setLookup l st po = some v := by
  unfold checkInConsensus at h
  cases hf : setLookup l st po with
  | none => rw [hf] at h; cases h
  | some a =>
    rw [hf] at h
    have : a = v := by simpa using h
    rw [this]

theorem setRemoveEntry_length (l : List SetEntry) (st po : Nat)
    (hnd : (l.map (fun en => (en.stake, en.pos))).Nodup)
    (hmem : ∃ en ∈ l, en.stake = st ∧ en.pos = po) :
    (setRemoveEntry l st po).length + 1 = l.length := by
  induction l with
  | nil => rcases hmem with ⟨en, hen, _⟩; cases hen
  | cons en rest ih =>
    rw [List.map_cons] at hnd
    rcases List.nodup_cons.mp hnd with ⟨hk, hnd2⟩
    by_cases hkey : (en.stake == st && en.pos == po) = true
    · have hkey2 : en.stake = st ∧ en.pos = po := by
        simpa using hkey
      have hrest : rest.filter
          (fun en => !(en.stake == st && en.pos == po)) = rest := by
        apply List.filter_eq_self.mpr
        intro x hx
        have hxk : ¬ (x.stake = st ∧ x.pos = po) := by
          intro hcontra
          apply hk
          have : (x.stake, x.pos) = (en.stake, en.pos) := by
            rw [hkey2.1, hkey2.2, hcontra.1, hcontra.2]
          exact this ▸ List.mem_map_of_mem _ hx
        by_cases h1 : x.stake = st
        · have h2 : x.pos ≠ po := fun h2 => hxk ⟨h1, h2⟩
          simp [h1, h2]
        · simp [h1]
      have hpe : (!(en.stake == st && en.pos == po)) = false := by
        simp [hkey2.1, hkey2.2]
      simp only [setRemoveEntry, List.filter_cons, hpe, Bool.false_eq_true,
        if_false, hrest, List.length_cons]
    · have hb : (en.stake == st && en.pos == po) = false := by
        cases hb2 : (en.stake == st && en.pos == po) with
        | false => rfl
        | true => exact absurd hb2 hkey
      have hne0 : ∃ en0 ∈ rest, en0.stake = st ∧ en0.pos = po := by
        rcases hmem with ⟨en0, hen0, h1, h2⟩
        rcases List.mem_cons.mp hen0 with rfl | h3
        · exact absurd (by simp [h1, h2]) hkey
        · exact ⟨en0, h3, h1, h2⟩
      have hih := ih hnd2 hne0
      have hpe : (!(en.stake == st && en.pos == po)) = true := by
        simp [hb]
      simp only [setRemoveEntry, List.filter_cons, hpe, if_true,
        List.length_cons] at hih ⊢
      omega

theorem insert_protocol_invariant (s : PosState) (p : PosParams) (a : Addr)
    (stake ce off : Nat) (s' : PosState)
    (hnd : ((s.consensusSet (ce + off)).map
      (fun en => (en.stake, en.pos))).Nodup)
    (hinv : validatorSetsInvariant p (s.consensusSet (ce + off))
      (s.belowCapSet (ce + off)))
    (hins : insertValidatorIntoValidatorSet s p a stake ce off = .ok s') :
    validatorSetsInvariant p (s'.consensusSet (ce + off))
      (s'.belowCapSet (ce + off)) ∧
    ∀ e, e ≠ ce + off → s'.consensusSet e = s.consensusSet e ∧
      s'.belowCapSet e = s.belowCapSet e := by
  obtain ⟨hcap, hfull⟩ := hinv
  unfold insertValidatorIntoValidatorSet at hins
  simp only [bind, Except.bind, pure, Except.pure] at hins
  split at hins
  · rename_i hlt
    cases hins
    refine ⟨⟨?_, ?_⟩, ?_⟩
    · simp only [stateWrite, insertValidatorIntoConsensus, updN]
      simp [List.length_append]
      omega
    · intro hbc
      exact absurd (hfull hbc) (Nat.ne_of_lt hlt)
    · intro e he
      constructor
      · simp [stateWrite, insertValidatorIntoConsensus, updN, he]
      · rfl
  · rename_i hge
    split at hins
    · rename_i hmin
      split at hins
      · rename_i err heq
        cases hins
      · rename_i lastMin heqLast
        split at hins
        · rename_i err heq
          cases hins
        · rename_i removed heqLook
          cases hins
          have hmem := setLookup_mem _ _ _ _ (expectO_ok heqLook)
          have hrm := setRemoveEntry_length (s.consensusSet (ce + off))
            (getMinConsensusAmount (s.consensusSet (ce + off))) lastMin hnd
            (by rcases hmem with ⟨en, h1, h2, h3, _⟩; exact ⟨en, h1, h2, h3⟩)
          refine ⟨⟨?_, ?_⟩, ?_⟩
          · simp only [stateWrite, insertValidatorIntoConsensus,
              insertValidatorIntoBelowCap, updN]
            simp [List.length_append]
            omega
          · intro hbc
            simp only [stateWrite, insertValidatorIntoConsensus,
              insertValidatorIntoBelowCap, updN]
            simp [List.length_append]
            omega
          · intro e he
            constructor
            · simp [stateWrite, insertValidatorIntoConsensus,
                insertValidatorIntoBelowCap, updN, he]
            · simp [stateWrite, insertValidatorIntoConsensus,
                insertValidatorIntoBelowCap, updN, he]
    · rename_i hminge
      cases hins
      refine ⟨⟨?_, ?_⟩, ?_⟩
      · exact hcap
      · intro hbc
        show (s.consensusSet (ce + off)).length = p.maxValidatorSlots
        omega
      · intro e he
        constructor
        · rfl
        · simp [stateWrite, insertValidatorIntoBelowCap, updN, he]


theorem update_protocol_invariant (s : PosState) (p : PosParams) (v : Addr)
    (tc : Int) (ce : Nat) (s' : PosState)
    (hnd : ((s.consensusSet (ce + p.pipelineLen)).map
      (fun en => (en.stake, en.pos))).Nodup)
    (hinv : validatorSetsInvariant p (s.consensusSet (ce + p.pipelineLen))
      (s.belowCapSet (ce + p.pipelineLen)))
    (hcoh : ∀ pos, getPosition s (ce + p.pipelineLen) v = some pos →
      checkInConsensus (s.consensusSet (ce + p.pipelineLen)) v
        ((readValidatorStakeOpt s v (ce + p.pipelineLen)).getD 0) pos =
          false →
      ∃ en ∈ s.belowCapSet (ce + p.pipelineLen),
        en.stake = (readValidatorStakeOpt s v (ce + p.pipelineLen)).getD 0 ∧
        en.pos = pos)
    (hupd : updateValidatorSet s p v tc ce = .ok s') :
    validatorSetsInvariant p (s'.consensusSet (ce + p.pipelineLen))
      (s'.belowCapSet (ce + p.pipelineLen)) ∧
    ∀ e, e ≠ ce + p.pipelineLen → s'.consensusSet e = s.consensusSet e ∧
      s'.belowCapSet e = s.belowCapSet e := by
  obtain ⟨hcap, hfull⟩ := hinv
  unfold updateValidatorSet at hupd
  simp only [bind, Except.bind, pure, Except.pure] at hupd
  split at hupd
  · cases hupd
    exact ⟨⟨hcap, hfull⟩, fun e he => ⟨rfl, rfl⟩⟩
  · rename_i htc
    split at hupd
    · rename_i err heqPos
      cases hupd
    · rename_i position heqPos
      split at hupd
      · rename_i hin
        have hmem := setLookup_mem _ _ _ _ (checkInConsensus_lookup _ _ _ _
          hin)
        have hrm := setRemoveEntry_length (s.consensusSet (ce + p.pipelineLen))
          ((readValidatorStakeOpt s v (ce + p.pipelineLen)).getD 0) position
          hnd (by rcases hmem with ⟨en, h1, h2, h3, _⟩; exact ⟨en, h1, h2, h3⟩)
        split at hupd
        · rename_i hlt
          split at hupd
          · rename_i err heq
            cases hupd
          · rename_i lowestPos heqLow
            split at hupd
            · rename_i err heq
              cases hupd
            · rename_i removedMax heqLookMax
              cases hupd
              have hbcmem := setLookup_mem _ _ _ _ (expectO_ok heqLookMax)
              have hbcne : s.belowCapSet (ce + p.pipelineLen) ≠ [] := by
                rcases hbcmem with ⟨en, h1, _⟩
                exact List.ne_nil_of_mem h1
              have hK := hfull hbcne
              refine ⟨⟨?_, ?_⟩, ?_⟩
              · simp only [stateWrite, insertValidatorIntoConsensus,
                  insertValidatorIntoBelowCap, updN]
                simp [List.length_append]
                omega
              · intro hbc
                simp only [stateWrite, insertValidatorIntoConsensus,
                  insertValidatorIntoBelowCap, updN]
                simp [List.length_append]
                omega
              · intro e he
                constructor
                · simp [stateWrite, insertValidatorIntoConsensus,
                    insertValidatorIntoBelowCap, updN, he]
                · simp [stateWrite, insertValidatorIntoConsensus,
                    insertValidatorIntoBelowCap, updN, he]
        · rename_i hge
          cases hupd
          refine ⟨⟨?_, ?_⟩, ?_⟩
          · simp only [insertValidatorIntoConsensus, updN]
            simp [List.length_append]
            omega
          · intro hbc
            have hK := hfull hbc
            simp only [insertValidatorIntoConsensus, updN]
            simp [List.length_append]
            omega
          · intro e he
            constructor
            · simp [insertValidatorIntoConsensus, updN, he]
            · rfl
      · rename_i hin
        have hin' : checkInConsensus (s.consensusSet (ce + p.pipelineLen)) v
            ((readValidatorStakeOpt s v (ce + p.pipelineLen)).getD 0)
            position = false := by
          cases h : checkInConsensus (s.consensusSet (ce + p.pipelineLen)) v
            ((readValidatorStakeOpt s v (ce + p.pipelineLen)).getD 0)
            position with
          | false => rfl
          | true => exact absurd h hin
        have hbcmem := hcoh position (expectO_ok heqPos) hin'
        have hbcne : s.belowCapSet (ce + p.pipelineLen) ≠ [] := by
          rcases hbcmem with ⟨en, h1, _⟩
          exact List.ne_nil_of_mem h1
        have hK := hfull hbcne
        split at hupd
        · rename_i hlt
          split at hupd
          · rename_i err heq
            cases hupd
          · rename_i lastMin heqLast
            split at hupd
            · rename_i err heq
              cases hupd
            · rename_i removedMin heqLookMin
              cases hupd
              have hmmem := setLookup_mem _ _ _ _ (expectO_ok heqLookMin)
              have hrm := setRemoveEntry_length
                (s.consensusSet (ce + p.pipelineLen))
                (getMinConsensusAmount
                  (s.consensusSet (ce + p.pipelineLen))) lastMin hnd
                (by rcases hmmem with ⟨en, h1, h2, h3, _⟩
                    exact ⟨en, h1, h2, h3⟩)
              refine ⟨⟨?_, ?_⟩, ?_⟩
              · simp only [stateWrite, insertValidatorIntoConsensus,
                  insertValidatorIntoBelowCap, updN]
                simp [List.length_append]
                omega
              · intro hbc
                simp only [stateWrite, insertValidatorIntoConsensus,
                  insertValidatorIntoBelowCap, updN]
                simp [List.length_append]
                omega
              · intro e he
                constructor
                · simp [stateWrite, insertValidatorIntoConsensus,
                    insertValidatorIntoBelowCap, updN, he]
                · simp [stateWrite, insertValidatorIntoConsensus,
                    insertValidatorIntoBelowCap, updN, he]
        · rename_i hge
          cases hupd
          refine ⟨⟨?_, ?_⟩, ?_⟩
          · exact hcap
          · intro hbc
            show (s.consensusSet (ce + p.pipelineLen)).length =
              p.maxValidatorSlots
            exact hK
          · intro e he
            constructor
            · rfl
            · simp [stateWrite, insertValidatorIntoBelowCap, updN, he]


theorem mapInsert_fold_fresh (l : List SetEntry) :
    ∀ (acc : List SetEntry),
      ((l.map (fun en => (en.stake, en.pos))).Nodup) →
      (∀ en ∈ l, (en.stake, en.pos) ∉
        acc.map (fun x => (x.stake, x.pos))) →
      l.foldl mapInsertSetEntry acc = acc ++ l := by
  induction l with
  | nil =>
    intro acc _ _
    simp
  | cons en rest ih =>
    intro acc hnd hfr
    rw [List.map_cons] at hnd
    rcases List.nodup_cons.mp hnd with ⟨hk, hnd2⟩
    have hstep : mapInsertSetEntry acc en = acc ++ [en] := by
      unfold mapInsertSetEntry
      have : acc.filter
          (fun x => !(x.stake == en.stake && x.pos == en.pos)) = acc := by
        apply List.filter_eq_self.mpr
        intro x hx
        have hxk : ¬ (x.stake = en.stake ∧ x.pos = en.pos) := by
          intro hcontra
          apply hfr en (List.mem_cons_self _ _)
          have : (en.stake, en.pos) = (x.stake, x.pos) := by
            rw [hcontra.1, hcontra.2]
          exact this ▸ List.mem_map_of_mem _ hx
        by_cases h1 : x.stake = en.stake
        · have h2 : x.pos ≠ en.pos := fun h2 => hxk ⟨h1, h2⟩
          simp [h1, h2]
        · simp [h1]
      rw [this]
    rw [List.foldl_cons, hstep, ih (acc ++ [en]) hnd2 ?_]
    · simp
    · intro en2 hen2 hmem
      rw [List.map_append, List.mem_append] at hmem
      rcases hmem with h | h
      · exact hfr en2 (List.mem_cons_of_mem _ hen2) h
      · simp only [List.map_cons, List.map_nil, List.mem_singleton] at h
        exact hk (h ▸ List.mem_map_of_mem _ hen2)

theorem copy_protocol_invariant (s : PosState) (p : PosParams) (t : Nat)
    (hct : s.consensusSet t = []) (hbt : s.belowCapSet t = [])
    (hndc : ((s.consensusSet (t - 1)).map
      (fun en => (en.stake, en.pos))).Nodup)
    (hndb : ((s.belowCapSet (t - 1)).map
      (fun en => (en.stake, en.pos))).Nodup)
    (hinv : validatorSetsInvariant p (s.consensusSet (t - 1))
      (s.belowCapSet (t - 1))) :
    (copyValidatorSetsAndPositions s t).consensusSet t =
      s.consensusSet (t - 1) ∧
    (copyValidatorSetsAndPositions s t).belowCapSet t =
      s.belowCapSet (t - 1) ∧
    validatorSetsInvariant p
      ((copyValidatorSetsAndPositions s t).consensusSet t)
      ((copyValidatorSetsAndPositions s t).belowCapSet t) ∧
    ∀ e, e ≠ t →
      (copyValidatorSetsAndPositions s t).consensusSet e =
        s.consensusSet e ∧
      (copyValidatorSetsAndPositions s t).belowCapSet e =
        s.belowCapSet e := by
  have hfoldc := mapInsert_fold_fresh (s.consensusSet (t - 1)) [] hndc
    (by intro en _ h; simp at h)
  have hfoldb := mapInsert_fold_fresh (s.belowCapSet (t - 1)) [] hndb
    (by intro en _ h; simp at h)
  have hc : (copyValidatorSetsAndPositions s t).consensusSet t =
      s.consensusSet (t - 1) := by
    simp only [copyValidatorSetsAndPositions, updN]
    simp [hct, hfoldc]
  have hb : (copyValidatorSetsAndPositions s t).belowCapSet t =
      s.belowCapSet (t - 1) := by
    simp only [copyValidatorSetsAndPositions, updN]
    simp [hbt, hfoldb]
  refine ⟨hc, hb, ?_, ?_⟩
  · rw [hc, hb]
    exact hinv
  · intro e he
    constructor
    · simp [copyValidatorSetsAndPositions, updN, he]
    · simp [copyValidatorSetsAndPositions, updN, he]


/-- **C2** (amended): the validator-set invariant — at most
`K = max_validator_slots` consensus members, and a non-empty below-capacity
set forcing exactly `K` — is preserved at the touched epoch (all other
epochs' sets unchanged) by the insertion protocol used by
`become_validator` and `unjail_validator` and by the stake-change update
protocol used by `bond` and `unbond`, under the well-formedness of
reachable states (distinct `(stake, position)` keys; the updated validator
resident in one of the two sets); the epoch copy carries the invariant of
the source epoch to a fresh target epoch.  `slash`, however, does not
preserve the invariant: at the intermediate epochs of its window it
removes the slashed validator without promoting a below-capacity
replacement, breaking the exactly-`K` half — see the counterexample.  (In
the concrete one-slot scenario the invariant is restored at the pipeline
epoch, the only epoch where `slash` promotes a replacement; no general
pipeline-epoch statement is made.) -/
theorem claim_C2 :
    (∀ (s : PosState) (p : PosParams) (a : Addr) (stake ce off : Nat)
        (s' : PosState),
      ((s.consensusSet (ce + off)).map
        (fun en => (en.stake, en.pos))).Nodup →
      validatorSetsInvariant p (s.consensusSet (ce + off))
        (s.belowCapSet (ce + off)) →
      insertValidatorIntoValidatorSet s p a stake ce off = .ok s' →
      validatorSetsInvariant p (s'.consensusSet (ce + off))
        (s'.belowCapSet (ce + off)) ∧
      ∀ e, e ≠ ce + off → s'.consensusSet e = s.consensusSet e ∧
        s'.belowCapSet e = s.belowCapSet e) ∧
    (∀ (s : PosState) (p : PosParams) (v : Addr) (tc : Int) (ce : Nat)
        (s' : PosState),
      ((s.consensusSet (ce + p.pipelineLen)).map
        (fun en => (en.stake, en.pos))).Nodup →
      validatorSetsInvariant p (s.consensusSet (ce + p.pipelineLen))
        (s.belowCapSet (ce + p.pipelineLen)) →
      (∀ pos, getPosition s (ce + p.pipelineLen) v = some pos →
        checkInConsensus (s.consensusSet (ce + p.pipelineLen)) v
          ((readValidatorStakeOpt s v (ce + p.pipelineLen)).getD 0) pos =
            false →
        ∃ en ∈ s.belowCapSet (ce + p.pipelineLen),
          en.stake =
            (readValidatorStakeOpt s v (ce + p.pipelineLen)).getD 0 ∧
          en.pos = pos) →
      updateValidatorSet s p v tc ce = .ok s' →
      validatorSetsInvariant p (s'.consensusSet (ce + p.pipelineLen))
        (s'.belowCapSet (ce + p.pipelineLen)) ∧
      ∀ e, e ≠ ce + p.pipelineLen → s'.consensusSet e = s.consensusSet e ∧
        s'.belowCapSet e = s.belowCapSet e) ∧
    (∀ (s : PosState) (p : PosParams) (t : Nat),
      s.consensusSet t = [] → s.belowCapSet t = [] →
      ((s.consensusSet (t - 1)).map
        (fun en => (en.stake, en.pos))).Nodup →
      ((s.belowCapSet (t - 1)).map
        (fun en => (en.stake, en.pos))).Nodup →
      validatorSetsInvariant p (s.consensusSet (t - 1))
        (s.belowCapSet (t - 1)) →
      validatorSetsInvariant p
        ((copyValidatorSetsAndPositions s t).consensusSet t)
        ((copyValidatorSetsAndPositions s t).belowCapSet t) ∧
      ∀ e, e ≠ t →
        (copyValidatorSetsAndPositions s t).consensusSet e =
          s.consensusSet e ∧
        (copyValidatorSetsAndPositions s t).belowCapSet e =
          s.belowCapSet e) ∧
    (oneSlotRun = .ok sOneSlot ∧
     validatorSetsInvariant oneSlotParams (sOneSlot.consensusSet 2)
       (sOneSlot.belowCapSet 2)) := by
  refine ⟨?_, ?_, ?_, rfl, ?_⟩
  · intro s p a stake ce off s' h1 h2 h3
    exact insert_protocol_invariant s p a stake ce off s' h1 h2 h3
  · intro s p v tc ce s' h1 h2 h3 h4
    exact update_protocol_invariant s p v tc ce s' h1 h2 h3 h4
  · intro s p t h1 h2 h3 h4 h5
    obtain ⟨_, _, hi, hf⟩ := copy_protocol_invariant s p t h1 h2 h3 h4 h5
    exact ⟨hi, hf⟩
  · constructor
    · decide
    · intro h
      decide

/-- Closed witness for the C2 hypotheses: inserting a new validator with
stake 70 into the full one-slot consensus set keeps the invariant at the
pipeline epoch. -/
theorem claim_C2_witness :
    validatorSetsInvariant oneSlotParams
      ((exceptState (insertValidatorIntoValidatorSet sOneSlotPre
        oneSlotParams (.user 3) 70 0 1)).consensusSet 1)
      ((exceptState (insertValidatorIntoValidatorSet sOneSlotPre
        oneSlotParams (.user 3) 70 0 1)).belowCapSet 1) :=
  (claim_C2.1 sOneSlotPre oneSlotParams (.user 3) 70 0 1
    (exceptState (insertValidatorIntoValidatorSet sOneSlotPre oneSlotParams
      (.user 3) 70 0 1))
    (by decide) ⟨by decide, fun h => by decide⟩ rfl).1

end NamadaPos
